import Mathlib

/-!
Verification of the request-resolution, execution, and verification pipeline of
the lazyrequest HTTP-template test runner.

The development shallowly embeds the three core components of the repository:
the variable resolver (src/resolver/variable-resolver.ts), the execution
orchestrator (src/orchestrator/execution-orchestrator.ts), and the response
comparator with its strategy selector (src/comparator/response-comparator.ts,
src/comparator/strategy-selector.ts).

Modelling conventions:
- JavaScript strings are Lean `String`s; the JS string operations used by the
  code (includes, trim, toLowerCase, the default Array#sort comparison) are
  re-implemented on `List Char` so that they compute inside the kernel.
- JavaScript runtime values flowing through bodies (string | object | null |
  undefined | number | boolean) are the inductive `JVal`.  JSON numbers are
  modelled as integers; floating point is out of scope of the claims.
- Thrown JS exceptions are modelled with `Except String`; a `.error` value is
  a thrown exception carrying the error message.
- Recursive traversals that are not structurally decreasing in the source
  (multi-pass interpolation, placeholder scanning, JSON parsing and
  serialisation) take an explicit fuel argument so that every definition is
  executable by kernel reduction.  Callers pass fuel that dominates the
  recursion depth (the input length or `sizeOf` of the value).
-/

namespace LazyReq

/-! ## Kernel-computable models of the JavaScript string primitives -/

/-- Model of JS `String#toLowerCase` on a single ASCII character. -/
def lowerChar (c : Char) : Char :=
  if 'A' ≤ c ∧ c ≤ 'Z' then Char.ofNat (c.toNat + 32) else c

/-- Model of JS `String#toLowerCase` (ASCII; the code only lowercases header
names and content types). -/
def lowerStr (s : String) : String := String.mk (s.data.map lowerChar)

/-- Whether `pre` is a prefix of `l` (character lists). -/
def isPrefixL : List Char → List Char → Bool
  | [], _ => true
  | _ :: _, [] => false
  | a :: as, b :: bs => a = b && isPrefixL as bs

/-- Whether `needle` occurs as a contiguous substring of the second list. -/
def containsL (needle : List Char) : List Char → Bool
  | [] => needle.isEmpty
  | c :: cs => isPrefixL needle (c :: cs) || containsL needle cs

/-- Model of JS `hay.includes(needle)`. -/
def strContains (hay needle : String) : Bool := containsL needle.data hay.data

/-- Model of the JS whitespace class used by `String#trim` and `\s`
(restricted to the ASCII whitespace characters that occur in HTTP templates). -/
def isWsChar (c : Char) : Bool :=
  c = ' ' || c = '\t' || c = '\n' || c = '\r' || c = '\x0b' || c = '\x0c'

/-- Model of JS `String#trim` on character lists. -/
def trimL (cs : List Char) : List Char :=
  ((cs.dropWhile isWsChar).reverse.dropWhile isWsChar).reverse

/-- Model of JS `String#trim`. -/
def strTrim (s : String) : String := String.mk (trimL s.data)

/-- Lexicographic comparison of character lists by code point; model of the
default JS `Array#sort` string comparison (the keys sorted by the comparator
are ASCII, where code points and UTF-16 units agree). -/
def lexLe : List Char → List Char → Bool
  | [], _ => true
  | _ :: _, [] => false
  | a :: as, b :: bs => if a = b then lexLe as bs else decide (a.toNat < b.toNat)

/-! ## JavaScript runtime values -/

/-- A JavaScript runtime value as it flows through the comparator and the
resolver: `jnull`/`jundef` are `null`/`undefined`, `jstr` a string, `jarr` an
array, `jobj` a plain object (an ordered list of key/value properties; JS
objects carry no duplicate keys). -/
inductive JVal where
  | jnull
  | jundef
  | jbool (b : Bool)
  | jnum (n : Int)
  | jstr (s : String)
  | jarr (elems : List JVal)
  | jobj (fields : List (String × JVal))

/-- A lower-case hex digit, for JSON control-character escapes. -/
def hexDigit (n : Nat) : Char :=
  if n < 10 then Char.ofNat (48 + n) else Char.ofNat (87 + n)

/-- JSON escaping of one character, as performed by `JSON.stringify`. -/
def escapeJsonChar (c : Char) : List Char :=
  if c = '"' then ['\\', '"']
  else if c = '\\' then ['\\', '\\']
  else if c = '\n' then ['\\', 'n']
  else if c = '\t' then ['\\', 't']
  else if c = '\r' then ['\\', 'r']
  else if c = '\x08' then ['\\', 'b']
  else if c = '\x0c' then ['\\', 'f']
  else if c.toNat < 32 then
    ['\\', 'u', '0', '0', hexDigit (c.toNat / 16), hexDigit (c.toNat % 16)]
  else [c]

/-- Model of `JSON.stringify` applied to a string value. -/
def renderJsonString (s : String) : String :=
  String.mk ('"' :: (s.data.map escapeJsonChar).flatten ++ ['"'])

/-- Model of JS `Array#join(",")`. -/
def joinComma : List String → String
  | [] => ""
  | [s] => s
  | s :: rest => s ++ "," ++ joinComma rest

mutual

/-- Executable structural size of a `JVal`; it dominates the nesting depth
and serves as fuel for the fueled traversals below. -/
def jsize : JVal → Nat
  | .jnull => 1
  | .jundef => 1
  | .jbool _ => 1
  | .jnum _ => 1
  | .jstr _ => 1
  | .jarr xs => jsizeList xs + 1
  | .jobj fs => jsizeFields fs + 1

/-- Combined size of a list of array elements. -/
def jsizeList : List JVal → Nat
  | [] => 1
  | x :: xs => jsize x + jsizeList xs

/-- Combined size of a list of object properties. -/
def jsizeFields : List (String × JVal) → Nat
  | [] => 1
  | (_, v) :: fs => jsize v + jsizeFields fs

end

/-- Order of object properties by key, as used by
`Object.keys(record).sort()` in `stableStringify`. -/
def keyLe (p q : String × JVal) : Prop := lexLe p.1.data q.1.data = true

instance : DecidableRel keyLe := fun p q => by unfold keyLe; infer_instance

/-- Fueled model of `ResponseComparator#stableStringify`
(src/comparator/response-comparator.ts): null and undefined print via
`String(value)`, non-objects via `JSON.stringify`, arrays elementwise, and
objects by their key-sorted properties.  The fuel bounds the nesting depth;
`stableStringify` passes `jsize`, which dominates it. -/
def ssGo : Nat → JVal → String
  | _, .jnull => "null"
  | _, .jundef => "undefined"
  | _, .jbool b => if b then "true" else "false"
  | _, .jnum n => toString n
  | _, .jstr s => renderJsonString s
  | 0, .jarr _ => ""
  | 0, .jobj _ => ""
  | f + 1, .jarr xs =>
      "[" ++ joinComma (xs.map (ssGo f)) ++ "]"
  | f + 1, .jobj fs =>
      "\x7b" ++ joinComma ((List.insertionSort keyLe fs).map
        (fun kv => renderJsonString kv.1 ++ ":" ++ ssGo f kv.2)) ++ "\x7d"

/-- Model of `ResponseComparator#stableStringify`. -/
def stableStringify (v : JVal) : String := ssGo (jsize v) v

/-! ## A model of `JSON.parse`

`JSON.parse` is a host primitive; the model below parses the JSON fragment
used by the repository (null, booleans, integer numbers, strings with the
common escapes, arrays, objects).  It is fueled on the nesting depth. -/

/-- JSON source whitespace. -/
def isJsonWs (c : Char) : Bool := c = ' ' || c = '\t' || c = '\n' || c = '\r'

/-- Value of a hex digit character, if any. -/
def hexVal (c : Char) : Option Nat :=
  if '0' ≤ c ∧ c ≤ '9' then some (c.toNat - 48)
  else if 'a' ≤ c ∧ c ≤ 'f' then some (c.toNat - 87)
  else if 'A' ≤ c ∧ c ≤ 'F' then some (c.toNat - 55)
  else none

/-- Parse the body of a JSON string literal after the opening quote; returns
the decoded characters and the input following the closing quote. -/
def parseStrBody : List Char → Option (List Char × List Char)
  | [] => none
  | '"' :: rest => some ([], rest)
  | '\\' :: 'u' :: h1 :: h2 :: h3 :: h4 :: rest => do
      let a ← hexVal h1
      let b ← hexVal h2
      let c ← hexVal h3
      let d ← hexVal h4
      let (tail, rest') ← parseStrBody rest
      some (Char.ofNat (((a * 16 + b) * 16 + c) * 16 + d) :: tail, rest')
  | '\\' :: e :: rest => do
      let c ←
        if e = '"' then some '"'
        else if e = '\\' then some '\\'
        else if e = '/' then some '/'
        else if e = 'n' then some '\n'
        else if e = 't' then some '\t'
        else if e = 'r' then some '\r'
        else if e = 'b' then some '\x08'
        else if e = 'f' then some '\x0c'
        else none
      let (tail, rest') ← parseStrBody rest
      some (c :: tail, rest')
  | c :: rest =>
      if c.toNat < 32 then none
      else do
        let (tail, rest') ← parseStrBody rest
        some (c :: tail, rest')

/-- Digit sequence to a natural number. -/
def digitsToNat (acc : Nat) : List Char → Nat
  | [] => acc
  | c :: cs => digitsToNat (acc * 10 + (c.toNat - 48)) cs

/-- Parse a JSON integer number (the model restricts JSON numbers to
integers; no claim involves fractional values). -/
def parseIntNum (cs : List Char) : Option (Int × List Char) :=
  let (neg, cs') := match cs with
    | '-' :: rest => (true, rest)
    | _ => (false, cs)
  let digits := cs'.takeWhile Char.isDigit
  let rest := cs'.dropWhile Char.isDigit
  if digits.isEmpty then none
  else
    let n : Int := Int.ofNat (digitsToNat 0 digits)
    some (if neg then -n else n, rest)

mutual

/-- Fueled JSON value grammar.  The fuel decreases on every recursive step;
`jsonParse` passes the input length, which dominates the recursion depth. -/
def parseVal : Nat → List Char → Option (JVal × List Char)
  | 0, _ => none
  | fuel + 1, cs =>
    match cs.dropWhile isJsonWs with
    | 'n' :: 'u' :: 'l' :: 'l' :: rest => some (.jnull, rest)
    | 't' :: 'r' :: 'u' :: 'e' :: rest => some (.jbool true, rest)
    | 'f' :: 'a' :: 'l' :: 's' :: 'e' :: rest => some (.jbool false, rest)
    | '"' :: rest => do
        let (content, rest') ← parseStrBody rest
        some (.jstr (String.mk content), rest')
    | '[' :: rest =>
        (match rest.dropWhile isJsonWs with
          | ']' :: rest' => some (.jarr [], rest')
          | _ => do
              let (elems, rest') ← parseArrItems fuel rest
              some (.jarr elems, rest'))
    | '{' :: rest =>
        (match rest.dropWhile isJsonWs with
          | '}' :: rest' => some (.jobj [], rest')
          | _ => do
              let (fields, rest') ← parseObjItems fuel rest
              some (.jobj fields, rest'))
    | other => do
        let (n, rest) ← parseIntNum other
        some (.jnum n, rest)

/-- Comma-separated JSON array elements up to the closing bracket. -/
def parseArrItems : Nat → List Char → Option (List JVal × List Char)
  | 0, _ => none
  | fuel + 1, cs => do
      let (v, rest) ← parseVal fuel cs
      match rest.dropWhile isJsonWs with
      | ']' :: rest' => some ([v], rest')
      | ',' :: rest' => do
          let (vs, rest'') ← parseArrItems fuel rest'
          some (v :: vs, rest'')
      | _ => none

/-- Comma-separated JSON object members up to the closing brace. -/
def parseObjItems : Nat → List Char → Option (List (String × JVal) × List Char)
  | 0, _ => none
  | fuel + 1, cs =>
      match cs.dropWhile isJsonWs with
      | '"' :: afterQuote => do
          let (key, afterKey) ← parseStrBody afterQuote
          match afterKey.dropWhile isJsonWs with
          | ':' :: afterColon => do
              let (v, rest) ← parseVal fuel afterColon
              match rest.dropWhile isJsonWs with
              | '}' :: rest' => some ([(String.mk key, v)], rest')
              | ',' :: rest' => do
                  let (fs, rest'') ← parseObjItems fuel rest'
                  some ((String.mk key, v) :: fs, rest'')
              | _ => none
          | _ => none
      | _ => none

end

/-- Model of `JSON.parse(s)`: parse one JSON value and require only
whitespace to follow; `none` models a thrown `SyntaxError`. -/
def jsonParse (s : String) : Option JVal := do
  let (v, rest) ← parseVal (s.data.length + 1) s.data
  if (rest.dropWhile isJsonWs).isEmpty then some v else none

/-! ## Key-permutation equivalence of JSON values (the relation of claim C8)

`jequiv f a b` decides whether `a` and `b` are equal up to reordering of
object keys at any nesting depth: atoms must be equal, arrays must agree
elementwise, and each object field of `a` must be matched by a distinct field
of `b` with the same key and an equivalent value, with none of `b`'s fields
left over.  Array element lists and object field lists are folded into the
same fueled function by re-wrapping the tail in its constructor; the fuel
only needs to dominate the total size of `a`. -/

/-- Remove the first field with the given key, returning its value and the
remaining fields. -/
def extractKey (k : String) : List (String × JVal) → Option (JVal × List (String × JVal))
  | [] => none
  | (k', v') :: rest =>
      if k' = k then some (v', rest)
      else (extractKey k rest).map (fun p => (p.1, (k', v') :: p.2))

/-- Fueled key-permutation equivalence (see the section comment). -/
def jequiv : Nat → JVal → JVal → Bool
  | 0, _, _ => false
  | _ + 1, .jnull, .jnull => true
  | _ + 1, .jundef, .jundef => true
  | _ + 1, .jbool a, .jbool b => a = b
  | _ + 1, .jnum a, .jnum b => a = b
  | _ + 1, .jstr a, .jstr b => a = b
  | f + 1, .jarr (x :: xs), .jarr (y :: ys) =>
      jequiv f x y && jequiv f (.jarr xs) (.jarr ys)
  | _ + 1, .jarr [], .jarr [] => true
  | f + 1, .jobj ((k, v) :: rest), .jobj bs =>
      match extractKey k bs with
      | some (v', bs') => jequiv f v v' && jequiv f (.jobj rest) (.jobj bs')
      | none => false
  | _ + 1, .jobj [], .jobj [] => true
  | _ + 1, _, _ => false

/-- Fueled well-formedness of a JS object graph: object key lists are
duplicate-free at every nesting depth (as they are for every value produced
by `JSON.parse` or a JS object literal). -/
def jwf : Nat → JVal → Bool
  | 0, _ => false
  | _ + 1, .jnull => true
  | _ + 1, .jundef => true
  | _ + 1, .jbool _ => true
  | _ + 1, .jnum _ => true
  | _ + 1, .jstr _ => true
  | _ + 1, .jarr [] => true
  | f + 1, .jarr (x :: xs) => jwf f x && jwf f (.jarr xs)
  | _ + 1, .jobj [] => true
  | f + 1, .jobj ((k, v) :: rest) =>
      !(rest.map Prod.fst).contains k && jwf f v && jwf f (.jobj rest)

/-! ## Shared HTTP data model

Mirrors the type declarations in src/types/types.ts that the resolver, the
orchestrator and the comparator exchange. -/

/-- One header name/value pair (`HttpHeader` in types.ts). -/
structure HttpHdr where
  name : String
  value : String

/-- One `@key = value` variable binding. -/
structure KV where
  key : String
  value : String

/-- A block of variables as the parser delivers it (`{fileVariables: [...]}`). -/
structure VarBlock where
  fileVariables : List KV

/-- The expected-response section of a request, including its own locally
scoped variables (the `variables` field in the source; renamed here because
`variables` is a reserved word in Lean). -/
structure ExpectedResponse where
  statusCode : Int
  statusText : Option String
  headers : List HttpHdr
  body : JVal
  localVariables : VarBlock

/-- A parsed request (`HttpRequest` from the parser AST). -/
structure HttpReq where
  method : String
  url : String
  headers : List HttpHdr
  body : Option JVal
  name : Option String
  blockVariables : VarBlock
  expectedResponse : Option ExpectedResponse

/-- A parsed template document (`ParsedHttpSource`): AST plus source
identity. `sourceType` is "inline" or "file". -/
structure HttpAst where
  fileScopedVariables : Option VarBlock
  globalVariables : VarBlock
  requests : List HttpReq

/-- A source document handed to the resolver. -/
structure ParsedHttpSource where
  sourceType : String
  sourceName : String
  filePath : Option String
  ast : HttpAst

/-- A resolved request unit (`ResolvedHttpRequestUnit`); `filePath` is
`none` for inline sources. -/
structure ResolvedUnit where
  sourceType : String
  sourceName : String
  filePath : Option String
  requestIndex : Nat
  request : HttpReq

/-- The normalized response observed by the executor
(`ExecutedHttpResponse`). -/
structure ExecutedHttpResponse where
  statusCode : Int
  statusText : String
  headers : List HttpHdr
  body : JVal
  rawBody : String
  durationMs : Nat

/-- The literal request the executor sent (`ExecutedHttpRequest`). -/
structure ExecutedHttpRequest where
  method : String
  url : String
  headers : List HttpHdr
  body : Option String

/-- A resolved unit together with the sent request and its response
(`ExecutedHttpRequestUnit`). -/
structure ExecutedUnit where
  sourceType : String
  sourceName : String
  requestIndex : Nat
  requestName : Option String
  request : ExecutedHttpRequest
  response : ExecutedHttpResponse

/-! ## Strategy selector (src/comparator/strategy-selector.ts) -/

/-- `StrategySelector#getHeaderValue`: first header whose lowercased name
matches, else null. -/
def getHeaderValue : List HttpHdr → String → Option String
  | [], _ => none
  | h :: rest, headerName =>
      if lowerStr h.name = lowerStr headerName then some h.value
      else getHeaderValue rest headerName

/-- `StrategySelector#isJsonContentType`. -/
def isJsonContentType : Option String → Bool
  | none => false
  | some ct =>
      strContains (lowerStr ct) "application/json" || strContains (lowerStr ct) "+json"

/-- `StrategySelector#isHtmlContentType`. -/
def isHtmlContentType : Option String → Bool
  | none => false
  | some ct => strContains (lowerStr ct) "text/html"

/-- `StrategySelector#isJsonLikeBody`: objects count as JSON-like; strings
count only when, after trimming, they are brace- or bracket-delimited and
`JSON.parse` succeeds on them. -/
def isJsonLikeBody : JVal → Bool
  | .jnull => false
  | .jundef => false
  | .jobj _ => true
  | .jarr _ => true
  | .jstr s =>
      let t := trimL s.data
      if t.isEmpty then false
      else if (t.head? = some '{' && t.getLast? = some '}')
           || (t.head? = some '[' && t.getLast? = some ']') then
        (jsonParse (String.mk t)).isSome
      else false
  | _ => false

/-- `StrategySelector#hasWildcardPattern`: string bodies containing `*`. -/
def hasWildcardPattern : JVal → Bool
  | .jstr s => strContains s "*"
  | _ => false

/-- `StrategySelector#select`: strategy priority json, then partial, then
exact; a missing expected block selects "exact". -/
def select (expectedResponse : Option ExpectedResponse) (actual : ExecutedHttpResponse) : String :=
  match expectedResponse with
  | none => "exact"
  | some expected =>
      let expectedContentType := getHeaderValue expected.headers "content-type"
      let actualContentType := getHeaderValue actual.headers "content-type"
      if isJsonContentType expectedContentType || isJsonContentType actualContentType
         || isJsonLikeBody expected.body || isJsonLikeBody actual.body then "json"
      else if isHtmlContentType expectedContentType || isHtmlContentType actualContentType
         || hasWildcardPattern expected.body then "partial"
      else "exact"

/-! ## Response comparator (src/comparator/response-comparator.ts) -/

/-- One comparison mismatch; `expected`/`actual` hold the JS values the
source pushes (numbers, strings, parsed JSON, or null). -/
structure Mismatch where
  field : String
  expected : JVal
  actual : JVal
  message : String

/-- The comparator verdict (`ResponseComparisonResult`). -/
structure CompResult where
  passed : Bool
  strategy : String
  mismatches : List Mismatch

/-- The comparator input (`ResponseComparisonContext`); a `none` expected
response triggers the default policy, and `strategy` optionally overrides
selection. -/
structure CompContext where
  expectedResponse : Option ExpectedResponse
  actualResponse : ExecutedHttpResponse
  strategy : Option String

/-- `ResponseComparator#compareStatus`: skipped unless the expected status
code is positive; one mismatch on inequality. -/
def compareStatus (expectedStatusCode actualStatusCode : Int) (mismatches : List Mismatch) : List Mismatch :=
  if expectedStatusCode ≤ 0 then mismatches
  else if expectedStatusCode ≠ actualStatusCode then
    mismatches ++ [{ field := "statusCode",
                     expected := .jnum expectedStatusCode,
                     actual := .jnum actualStatusCode,
                     message := "Expected status code " ++ toString expectedStatusCode
                       ++ ", received " ++ toString actualStatusCode ++ "." }]
  else mismatches

/-- `ResponseComparator#compareStatusText`: skipped when no text expected. -/
def compareStatusText (expectedStatusText : Option String) (actualStatusText : String)
    (mismatches : List Mismatch) : List Mismatch :=
  match expectedStatusText with
  | none => mismatches
  | some t =>
      if t ≠ actualStatusText then
        mismatches ++ [{ field := "statusText",
                         expected := .jstr t,
                         actual := .jstr actualStatusText,
                         message := "Expected status text \"" ++ t ++ "\", received \""
                           ++ actualStatusText ++ "\"." }]
      else mismatches

/-- Lookup in the lowercased-name map the comparator builds from the actual
headers with `Map#set` (a later header with the same lowercased name wins). -/
def headerMapGet (actualHeaders : List HttpHdr) (k : String) : Option String :=
  actualHeaders.foldl (fun acc h => if lowerStr h.name = k then some h.value else acc) none

/-- The loop body of `ResponseComparator#compareHeaders` over the expected
headers. -/
def compareHeadersGo (actualHeaders : List HttpHdr) : List HttpHdr → List Mismatch → List Mismatch
  | [], mismatches => mismatches
  | h :: rest, mismatches =>
      let normalizedHeaderName := lowerStr h.name
      match headerMapGet actualHeaders normalizedHeaderName with
      | none =>
          compareHeadersGo actualHeaders rest
            (mismatches ++ [{ field := "headers." ++ normalizedHeaderName,
                              expected := .jstr h.value,
                              actual := .jnull,
                              message := "Expected header \"" ++ h.name ++ "\" to be present." }])
      | some actualValue =>
          if actualValue ≠ h.value then
            compareHeadersGo actualHeaders rest
              (mismatches ++ [{ field := "headers." ++ normalizedHeaderName,
                                expected := .jstr h.value,
                                actual := .jstr actualValue,
                                message := "Expected header \"" ++ h.name ++ "\" value \""
                                  ++ h.value ++ "\", received \"" ++ actualValue ++ "\"." }])
          else compareHeadersGo actualHeaders rest mismatches

/-- `ResponseComparator#compareHeaders`: only expected-listed headers are
checked, by lowercased name. -/
def compareHeaders (expectedHeaders actualHeaders : List HttpHdr)
    (mismatches : List Mismatch) : List Mismatch :=
  if expectedHeaders.isEmpty then mismatches
  else compareHeadersGo actualHeaders expectedHeaders mismatches

/-- `ResponseComparator#toComparableText`: null/undefined become "", strings
pass through, anything else is canonically serialized. -/
def toComparableText : JVal → String
  | .jnull => ""
  | .jundef => ""
  | .jstr s => s
  | v => stableStringify v

/-- `ResponseComparator#toJsonComparable`: null passes through, objects and
arrays pass through, strings are trimmed and parsed; `none` models the JS
`undefined` result that the caller treats as non-JSON content (undefined
input, blank or unparsable strings, numbers, booleans). -/
def toJsonComparable : JVal → Option JVal
  | .jnull => some .jnull
  | .jundef => none
  | .jobj fs => some (.jobj fs)
  | .jarr xs => some (.jarr xs)
  | .jstr s =>
      let t := trimL s.data
      if t.isEmpty then none else jsonParse (String.mk t)
  | _ => none

/-- `ResponseComparator#deepEqual`: equality of canonical serializations. -/
def deepEqual (left right : JVal) : Bool :=
  stableStringify left = stableStringify right

/-- `ResponseComparator#compareJsonBody`. -/
def compareJsonBody (expectedBody actualBody : JVal) (mismatches : List Mismatch) : List Mismatch :=
  match toJsonComparable expectedBody, toJsonComparable actualBody with
  | some expectedJson, some actualJson =>
      if !deepEqual expectedJson actualJson then
        mismatches ++ [{ field := "body",
                         expected := expectedJson,
                         actual := actualJson,
                         message := "JSON body does not match expected structure/value." }]
      else mismatches
  | _, _ =>
      mismatches ++ [{ field := "body",
                       expected := expectedBody,
                       actual := actualBody,
                       message := "JSON comparison failed because one of the bodies is not valid JSON-compatible content." }]

/-- `ResponseComparator#compareExactBody`. -/
def compareExactBody (expectedBody actualBody : JVal) (mismatches : List Mismatch) : List Mismatch :=
  let expectedText := toComparableText expectedBody
  let actualText := toComparableText actualBody
  if expectedText ≠ actualText then
    mismatches ++ [{ field := "body",
                     expected := .jstr expectedText,
                     actual := .jstr actualText,
                     message := "Response body does not match expected exact value." }]
  else mismatches

/-- Split a character list at every `*` (the wildcard of the partial
strategy). -/
def splitStar : List Char → List (List Char)
  | [] => [[]]
  | '*' :: rest => [] :: splitStar rest
  | c :: rest =>
      match splitStar rest with
      | [] => [[c]]
      | seg :: segs => (c :: seg) :: segs

/-- Whether `suf` is a suffix of `l`. -/
def isSuffixL (suf l : List Char) : Bool := isPrefixL suf.reverse l.reverse

/-- Drop through the first occurrence of `seg`, returning the text that
follows it, if `seg` occurs at all. -/
def dropThroughFirst (seg : List Char) : List Char → Option (List Char)
  | [] => if seg.isEmpty then some [] else none
  | c :: cs =>
      if isPrefixL seg (c :: cs) then some ((c :: cs).drop seg.length)
      else dropThroughFirst seg cs

/-- Matching of the middle and final wildcard segments: middles may appear
anywhere in order, the final segment must end the text. -/
def globTail : List (List Char) → List Char → Bool
  | [], text => text.isEmpty
  | [seg], text => isSuffixL seg text
  | seg :: segs, text =>
      match dropThroughFirst seg text with
      | some rest => globTail segs rest
      | none => false

/-- Model of `ResponseComparator#wildcardToRegExp` followed by
`RegExp#test`: the pattern is anchored at both ends, `*` matches any
sequence including newlines (the `s` flag), and every other character is
literal (the source escapes all regex metacharacters). -/
def wildcardTest (pattern text : String) : Bool :=
  match splitStar pattern.data with
  | [] => text.data.isEmpty
  | [seg] => text.data = seg
  | seg :: segs => isPrefixL seg text.data && globTail segs (text.data.drop seg.length)

/-- `ResponseComparator#comparePartialBody`: wildcard match when the
expected text contains `*`, else substring containment. -/
def comparePartialBody (expectedBody actualBody : JVal) (mismatches : List Mismatch) : List Mismatch :=
  let expectedText := toComparableText expectedBody
  let actualText := toComparableText actualBody
  if strContains expectedText "*" then
    if !wildcardTest expectedText actualText then
      mismatches ++ [{ field := "body",
                       expected := .jstr expectedText,
                       actual := .jstr actualText,
                       message := "Response body does not match expected wildcard pattern." }]
    else mismatches
  else if !strContains actualText expectedText then
    mismatches ++ [{ field := "body",
                     expected := .jstr expectedText,
                     actual := .jstr actualText,
                     message := "Response body does not contain expected partial content." }]
  else mismatches

/-- `ResponseComparator#compareBody`: skipped for null/undefined/empty
expected bodies, then dispatched on the strategy. -/
def compareBody (strategy : String) (expectedBody actualBody : JVal)
    (mismatches : List Mismatch) : List Mismatch :=
  match expectedBody with
  | .jnull => mismatches
  | .jundef => mismatches
  | .jstr "" => mismatches
  | _ =>
      if strategy = "json" then compareJsonBody expectedBody actualBody mismatches
      else if strategy = "partial" then comparePartialBody expectedBody actualBody mismatches
      else compareExactBody expectedBody actualBody mismatches

/-- `ResponseComparator#compare` with the default expected status code 200:
default policy when no expected block is present, otherwise the four checks
run independently in order. -/
def compare (ctx : CompContext) : CompResult :=
  match ctx.expectedResponse with
  | none =>
      let mismatches := compareStatus 200 ctx.actualResponse.statusCode []
      { passed := mismatches.isEmpty,
        strategy := ctx.strategy.getD "exact",
        mismatches := mismatches }
  | some expected =>
      let strategy :=
        match ctx.strategy with
        | some s => s
        | none => select (some expected) ctx.actualResponse
      let ms := compareStatus expected.statusCode ctx.actualResponse.statusCode []
      let ms := compareStatusText expected.statusText ctx.actualResponse.statusText ms
      let ms := compareHeaders expected.headers ctx.actualResponse.headers ms
      let ms := compareBody strategy expected.body ctx.actualResponse.body ms
      { passed := ms.isEmpty, strategy := strategy, mismatches := ms }

/-! ## Variable resolver (src/resolver/variable-resolver.ts) -/

/-- Constructor options of `VariableResolver`, with the source defaults. -/
structure VariableResolverOptions where
  maxInterpolationPasses : Nat := 10
  throwOnUnresolved : Bool := false

/-- Characters allowed in a placeholder name: `[a-zA-Z0-9_.-]`. -/
def isNameChar (c : Char) : Bool :=
  c.isAlpha || c.isDigit || c = '_' || c = '.' || c = '-'

/-- Leftmost match of `PLACEHOLDER_PATTERN` at the head of the input:
two opening braces, optional whitespace, a nonempty name, optional
whitespace, two closing braces.  Returns the name and the input after the
match.  Maximal munch agrees with the regex because the name class and the
whitespace class are disjoint and contain no brace. -/
def matchPlaceholder : List Char → Option (String × List Char)
  | '{' :: '{' :: rest =>
      let afterWs := rest.dropWhile isWsChar
      let nameCs := afterWs.takeWhile isNameChar
      let afterName := afterWs.dropWhile isNameChar
      if nameCs.isEmpty then none
      else
        match afterName.dropWhile isWsChar with
        | '}' :: '}' :: rest' => some (String.mk nameCs, rest')
        | _ => none
  | _ => none

/-- The thrown message for a strict-mode unresolved placeholder. -/
def unresolvedMsg (name : String) : String :=
  "Unresolved variable: \x7b\x7b" ++ name ++ "\x7d\x7d"

/-- The literal text a placeholder is rewritten to when its variable is
undefined and strict mode is off (note the regex callback normalizes inner
whitespace away). -/
def placeholderLit (name : String) : List Char :=
  '{' :: '{' :: name.data ++ ['}', '}']

/-- One left-to-right pass of `String#replace` with the global placeholder
regex and the resolver's callback: matches are rewritten without rescanning
their replacements, an undefined variable throws in strict mode and is kept
verbatim otherwise, and the changed flag records whether any replacement
happened.  Fueled on the input length (each step consumes at least one
character). -/
def replaceGo (strict : Bool) (vars : String → Option String) :
    Nat → List Char → Except String (List Char × Bool)
  | 0, cs => .ok (cs, false)
  | _ + 1, [] => .ok ([], false)
  | fuel + 1, c :: cs =>
      match matchPlaceholder (c :: cs) with
      | some (name, rest) =>
          match vars name with
          | none =>
              if strict then .error (unresolvedMsg name)
              else
                match replaceGo strict vars fuel rest with
                | .error e => .error e
                | .ok (out, changed) => .ok (placeholderLit name ++ out, changed)
          | some replacement =>
              match replaceGo strict vars fuel rest with
              | .error e => .error e
              | .ok (out, _) => .ok (replacement.data ++ out, true)
      | none =>
          match replaceGo strict vars fuel cs with
          | .error e => .error e
          | .ok (out, changed) => .ok (c :: out, changed)

/-- One `String#replace` pass over a character list. -/
def replacePass (strict : Bool) (vars : String → Option String) (cs : List Char) :
    Except String (List Char × Bool) :=
  replaceGo strict vars cs.length cs

/-- Names of all placeholders the global regex finds, leftmost first. -/
def scanGo : Nat → List Char → List String
  | 0, _ => []
  | _ + 1, [] => []
  | fuel + 1, c :: cs =>
      match matchPlaceholder (c :: cs) with
      | some (name, rest) => name :: scanGo fuel rest
      | none => scanGo fuel cs

/-- Placeholder names occurring in a character list. -/
def scanPlaceholders (cs : List Char) : List String := scanGo cs.length cs

/-- Model of `HAS_PLACEHOLDER_PATTERN.test`. -/
def hasPlaceholder (cs : List Char) : Bool := !(scanPlaceholders cs).isEmpty

/-- The bounded fixed-point loop of `VariableResolver#interpolateString`:
up to `passes` replace passes, stopping early when a pass changes nothing
or no placeholder remains.  When the cap is reached the current output is
returned as is. -/
def interpolateGo (strict : Bool) (vars : String → Option String) :
    Nat → List Char → Except String (List Char)
  | 0, cs => .ok cs
  | passes + 1, cs =>
      match replacePass strict vars cs with
      | .error e => .error e
      | .ok (out, changed) =>
          if changed = false || hasPlaceholder out = false then .ok out
          else interpolateGo strict vars passes out

/-- `VariableResolver#interpolateString`. -/
def interpolateString (opts : VariableResolverOptions) (vars : String → Option String)
    (input : String) : Except String String :=
  (interpolateGo opts.throwOnUnresolved vars opts.maxInterpolationPasses input.data).map String.mk

/-- `VariableResolver#toVariableMap` as a lookup function: bindings whose
trimmed key is empty are skipped, and a later binding of the same key
overwrites an earlier one. -/
def toVariableMap (vars : List KV) : String → Option String :=
  fun k =>
    vars.foldl
      (fun acc v =>
        if (strTrim v.key).data.isEmpty then acc
        else if v.key = k then some v.value else acc)
      none

/-- Model of the object spread `{...low, ...high}` used to merge scopes:
the high-priority scope shadows the low-priority one. -/
def mergeVars (low high : String → Option String) : String → Option String :=
  fun k =>
    match high k with
    | some v => some v
    | none => low k

/-- Fueled model of `VariableResolver#interpolateUnknown`: strings are
interpolated, arrays and object property values are traversed recursively
(object keys are left untouched), all other values pass through.  Array and
field tails recurse through their re-wrapped constructor; the invariant that
an `.jarr`/`.jobj` input yields the same constructor shows the fallback
arms of the tail matches are unreachable.  Callers pass `jsize` as fuel,
which dominates the traversal. -/
def interpolateUnknownF (opts : VariableResolverOptions) (vars : String → Option String) :
    Nat → JVal → Except String JVal
  | 0, v => .ok v
  | _ + 1, .jstr s =>
      (match interpolateString opts vars s with
        | .error e => .error e
        | .ok t => .ok (.jstr t))
  | _ + 1, .jarr [] => .ok (.jarr [])
  | f + 1, .jarr (x :: xs) =>
      (match interpolateUnknownF opts vars f x with
        | .error e => .error e
        | .ok y =>
          match interpolateUnknownF opts vars f (.jarr xs) with
          | .error e => .error e
          | .ok (.jarr ys) => .ok (.jarr (y :: ys))
          | .ok _ => .ok (.jarr [y]))
  | _ + 1, .jobj [] => .ok (.jobj [])
  | f + 1, .jobj ((k, v) :: fs) =>
      (match interpolateUnknownF opts vars f v with
        | .error e => .error e
        | .ok w =>
          match interpolateUnknownF opts vars f (.jobj fs) with
          | .error e => .error e
          | .ok (.jobj ws) => .ok (.jobj ((k, w) :: ws))
          | .ok _ => .ok (.jobj [(k, w)]))
  | _ + 1, v => .ok v

/-- Interpolation of a header list (names and values, in order). -/
def interpHeaders (opts : VariableResolverOptions) (vars : String → Option String) :
    List HttpHdr → Except String (List HttpHdr)
  | [] => .ok []
  | h :: rest =>
      match interpolateString opts vars h.name with
      | .error e => .error e
      | .ok n =>
        match interpolateString opts vars h.value with
        | .error e => .error e
        | .ok v =>
          match interpHeaders opts vars rest with
          | .error e => .error e
          | .ok tail => .ok ({ name := n, value := v } :: tail)

/-- Interpolation of an optional body (`if (cloned.body !== null)`). -/
def resolveBody (opts : VariableResolverOptions) (vars : String → Option String) :
    Option JVal → Except String (Option JVal)
  | none => .ok none
  | some b =>
      match interpolateUnknownF opts vars (jsize b) b with
      | .error e => .error e
      | .ok w => .ok (some w)

/-- Interpolation of an optional status text. -/
def resolveStatusText (opts : VariableResolverOptions) (vars : String → Option String) :
    Option String → Except String (Option String)
  | none => .ok none
  | some st =>
      match interpolateString opts vars st with
      | .error e => .error e
      | .ok t => .ok (some t)

/-- Interpolation of an expected-response block under an explicit scope
(statusText, headers, body, in source order). -/
def resolveExpectedWith (opts : VariableResolverOptions)
    (expectedVariables : String → Option String) (er : ExpectedResponse) :
    Except String ExpectedResponse :=
  match resolveStatusText opts expectedVariables er.statusText with
  | .error e => .error e
  | .ok st =>
    match interpHeaders opts expectedVariables er.headers with
    | .error e => .error e
    | .ok hs =>
      match interpolateUnknownF opts expectedVariables (jsize er.body) er.body with
      | .error e => .error e
      | .ok bd => .ok { er with statusText := st, headers := hs, body := bd }

/-- Interpolation of an optional expected-response block: its scope is the
request's merged scope overridden by the block's own variables. -/
def resolveExpected (opts : VariableResolverOptions) (vars : String → Option String) :
    Option ExpectedResponse → Except String (Option ExpectedResponse)
  | none => .ok none
  | some er =>
      match resolveExpectedWith opts
              (mergeVars vars (toVariableMap er.localVariables.fileVariables)) er with
      | .error e => .error e
      | .ok er' => .ok (some er')

/-- `VariableResolver#resolveRequest`: clone-and-interpolate url, headers
and body under the merged scope, and the expected-response block under that
scope additionally shadowed by the block's own variables (the functional
model needs no explicit `structuredClone`).  The interpolations run in the
source's order, so the first thrown error wins. -/
def resolveRequest (opts : VariableResolverOptions) (req : HttpReq)
    (vars : String → Option String) : Except String HttpReq :=
  match interpolateString opts vars req.url with
  | .error e => .error e
  | .ok url =>
    match interpHeaders opts vars req.headers with
    | .error e => .error e
    | .ok headers =>
      match resolveBody opts vars req.body with
      | .error e => .error e
      | .ok body =>
        match resolveExpected opts vars req.expectedResponse with
        | .error e => .error e
        | .ok expectedResponse =>
            .ok { req with url := url, headers := headers, body := body,
                           expectedResponse := expectedResponse }

/-- The file-scope variable list of a source:
`ast.fileScopedVariables?.fileVariables ?? ast.globalVariables.fileVariables`. -/
def fileVarsOf (s : ParsedHttpSource) : List KV :=
  match s.ast.fileScopedVariables with
  | some vb => vb.fileVariables
  | none => s.ast.globalVariables.fileVariables

/-- The mapped body of `VariableResolver#resolveSource` over the request
list, carrying the zero-based request index. -/
def resolveUnitsGo (opts : VariableResolverOptions) (s : ParsedHttpSource)
    (fileVariables : String → Option String) :
    Nat → List HttpReq → Except String (List ResolvedUnit)
  | _, [] => .ok []
  | requestIndex, req :: rest =>
      match resolveRequest opts req
              (mergeVars fileVariables (toVariableMap req.blockVariables.fileVariables)) with
      | .error e => .error e
      | .ok resolvedRequest =>
        match resolveUnitsGo opts s fileVariables (requestIndex + 1) rest with
        | .error e => .error e
        | .ok tail =>
            .ok ({ sourceType := s.sourceType,
                   sourceName := s.sourceName,
                   filePath := if s.sourceType = "file" then s.filePath else none,
                   requestIndex := requestIndex,
                   request := resolvedRequest } :: tail)

/-- `VariableResolver#resolveSource`. -/
def resolveSource (opts : VariableResolverOptions) (s : ParsedHttpSource) :
    Except String (List ResolvedUnit) :=
  resolveUnitsGo opts s (toVariableMap (fileVarsOf s)) 0 s.ast.requests

/-! ## Execution orchestrator (src/orchestrator/execution-orchestrator.ts)

The HTTP executor and the comparator are injected collaborators
(`options.executor`, `options.comparator`); they are modelled as functions
returning `Except String`, where `.error` is a thrown exception.  `sleep`
and the per-result callback do not influence the produced results and are
dropped from the model.  The concurrent strategy completes results in
nondeterministic order in JS; the model fixes submission order, which is
sound for the membership and length properties proved here. -/

/-- An injected HTTP executor: throws on network or timeout failure. -/
abbrev HttpExec := ResolvedUnit → Except String ExecutedUnit

/-- An injected response comparator. -/
abbrev CompFn := CompContext → Except String CompResult

/-- One per-unit execution result (`ExecutionResult`); `error` carries the
message of the captured exception. -/
structure ExecutionResult where
  unit : ResolvedUnit
  passed : Bool
  executedUnit : Option ExecutedUnit
  comparison : Option CompResult
  error : Option String

/-- The raw constructor options of `ExecutionOrchestrator` (JS numbers are
modelled as rationals so that non-integer inputs are expressible). -/
structure OrchestratorRawOptions where
  bail : Option ℚ := none
  maxRequests : Option ℚ := none
  requestExecutionStrategy : String := "concurrent"

/-- `ExecutionOrchestrator#normalizeMaxRequests`: non-integer or
non-positive values become null; valid values are positive integers. -/
def normalizeMaxRequests : Option ℚ → Option Nat
  | none => none
  | some v => if v.isInt = false ∨ v ≤ 0 then none else some v.num.toNat

/-- `ExecutionOrchestrator#normalizeBail`: same normalization as
`normalizeMaxRequests`. -/
def normalizeBail : Option ℚ → Option Nat
  | none => none
  | some v => if v.isInt = false ∨ v ≤ 0 then none else some v.num.toNat

/-- The orchestrator state after constructor normalization. -/
structure OrchestratorConfig where
  bail : Option Nat
  maxRequests : Option Nat
  requestExecutionStrategy : String

/-- The `ExecutionOrchestrator` constructor (normalization of bail and
maxRequests). -/
def mkOrchestrator (raw : OrchestratorRawOptions) : OrchestratorConfig :=
  { bail := normalizeBail raw.bail,
    maxRequests := normalizeMaxRequests raw.maxRequests,
    requestExecutionStrategy := raw.requestExecutionStrategy }

/-- `ExecutionOrchestrator#executeSingleUnit`: delegate to the executor,
compare on success, and capture any thrown exception as the result's error
with null executed unit and comparison. -/
def executeSingleUnit (exec : HttpExec) (comp : CompFn) (unit : ResolvedUnit) : ExecutionResult :=
  match exec unit with
  | .error e =>
      { unit := unit, passed := false, executedUnit := none, comparison := none,
        error := some e }
  | .ok executedUnit =>
      match comp { expectedResponse := unit.request.expectedResponse,
                   actualResponse := executedUnit.response,
                   strategy := none } with
      | .error e =>
          { unit := unit, passed := false, executedUnit := none, comparison := none,
            error := some e }
      | .ok comparison =>
          { unit := unit, passed := comparison.passed, executedUnit := some executedUnit,
            comparison := some comparison, error := none }

/-- The loop's failure-count update: `if (!result.passed) failedCount += 1`. -/
def stepFail (result : ExecutionResult) (failedCount : Nat) : Nat :=
  if result.passed then failedCount else failedCount + 1

/-- `ExecutionOrchestrator#executeRunInBand`: sequential dispatch carrying
the cumulative failure count; after pushing a result, the loop breaks once
the count reaches the bail threshold. -/
def executeRunInBand (cfg : OrchestratorConfig) (exec : HttpExec) (comp : CompFn) :
    List ResolvedUnit → Nat → List ExecutionResult
  | [], _ => []
  | unit :: rest, failedCount =>
      let result := executeSingleUnit exec comp unit
      match cfg.bail with
      | some b =>
          if b ≤ stepFail result failedCount then [result]
          else result :: executeRunInBand cfg exec comp rest (stepFail result failedCount)
      | none => result :: executeRunInBand cfg exec comp rest (stepFail result failedCount)

/-- `ExecutionOrchestrator#executeConcurrent`: every post-cap unit is
dispatched; bail is not consulted. -/
def executeConcurrent (exec : HttpExec) (comp : CompFn)
    (units : List ResolvedUnit) : List ExecutionResult :=
  units.map (executeSingleUnit exec comp)

/-- `ExecutionOrchestrator#applyMaxRequests`: truncate to the first
maxRequests units when the cap is set. -/
def applyMaxRequests (cfg : OrchestratorConfig) (units : List ResolvedUnit) : List ResolvedUnit :=
  match cfg.maxRequests with
  | none => units
  | some m => units.take m

/-- `ExecutionOrchestrator#execute`: apply the cap, then dispatch under the
configured strategy. -/
def execute (cfg : OrchestratorConfig) (exec : HttpExec) (comp : CompFn)
    (units : List ResolvedUnit) : List ExecutionResult :=
  let executionUnits := applyMaxRequests cfg units
  if cfg.requestExecutionStrategy = "concurrent" then
    executeConcurrent exec comp executionUnits
  else
    executeRunInBand cfg exec comp executionUnits 0

/-! ## Statement-side definitions for the claims -/

/-- Number of failed results in a result list (the orchestrator's cumulative
failure count over a produced segment). -/
def nFail (rs : List ExecutionResult) : Nat := rs.countP (fun r => !r.passed)

/-- The mismatch `compareStatus` pushes. -/
def statusMismatch (e a : Int) : Mismatch :=
  { field := "statusCode", expected := .jnum e, actual := .jnum a,
    message := "Expected status code " ++ toString e ++ ", received " ++ toString a ++ "." }

/-- The mismatch `compareHeaders` pushes for an absent expected header. -/
def missingHeaderMismatch (h : HttpHdr) : Mismatch :=
  { field := "headers." ++ lowerStr h.name, expected := .jstr h.value, actual := .jnull,
    message := "Expected header \"" ++ h.name ++ "\" to be present." }

/-- The mismatch `compareHeaders` pushes for a differing header value. -/
def headerValueMismatch (h : HttpHdr) (actualValue : String) : Mismatch :=
  { field := "headers." ++ lowerStr h.name, expected := .jstr h.value, actual := .jstr actualValue,
    message := "Expected header \"" ++ h.name ++ "\" value \"" ++ h.value
      ++ "\", received \"" ++ actualValue ++ "\"." }

/-- Per-expected-header verdict of the comparator's header check: a missing
header yields the absent-header mismatch, a differing value yields the
value mismatch, a match yields nothing. -/
def headerVerdict (actualHeaders : List HttpHdr) (h : HttpHdr) : Option Mismatch :=
  match headerMapGet actualHeaders (lowerStr h.name) with
  | none => some (missingHeaderMismatch h)
  | some actualValue =>
      if actualValue = h.value then none else some (headerValueMismatch h actualValue)

/-- Statement side of claim C5, written from the claim's own words: a body
qualifies for the json strategy when it "is already object-shaped or parses
as JSON". -/
def objectShapedOrParses : JVal → Bool
  | .jobj _ => true
  | .jarr _ => true
  | .jstr s => (jsonParse s).isSome
  | _ => false

/-- Statement side of claim C5: the claimed json-strategy condition. -/
def claimJsonCond (er : ExpectedResponse) (actual : ExecutedHttpResponse) : Bool :=
  isJsonContentType (getHeaderValue er.headers "content-type")
    || isJsonContentType (getHeaderValue actual.headers "content-type")
    || objectShapedOrParses er.body
    || objectShapedOrParses actual.body

/-- Statement side of claim C5: the claimed partial-strategy condition. -/
def claimPartialCond (er : ExpectedResponse) (actual : ExecutedHttpResponse) : Bool :=
  isHtmlContentType (getHeaderValue er.headers "content-type")
    || isHtmlContentType (getHeaderValue actual.headers "content-type")
    || hasWildcardPattern er.body

/-- Amended body condition of claim C5 (what the code actually requires): a
string body must be brace- or bracket-delimited after trimming and parse as
JSON; object-shaped bodies qualify as before. -/
def amendedJsonBodyCond : JVal → Bool
  | .jobj _ => true
  | .jarr _ => true
  | .jstr s =>
      let t := trimL s.data
      ((t.head? = some '{' && t.getLast? = some '}')
        || (t.head? = some '[' && t.getLast? = some ']'))
      && (jsonParse (String.mk t)).isSome
  | _ => false

/-- Amended json-strategy condition of claim C5. -/
def amendedJsonCond (er : ExpectedResponse) (actual : ExecutedHttpResponse) : Bool :=
  isJsonContentType (getHeaderValue er.headers "content-type")
    || isJsonContentType (getHeaderValue actual.headers "content-type")
    || amendedJsonBodyCond er.body
    || amendedJsonBodyCond actual.body

/-- Fuel-existential key-permutation equivalence of values. -/
def EqE (a b : JVal) : Prop := ∃ f, jequiv f a b = true

/-- Fuel-existential well-formedness (duplicate-free keys at every depth). -/
def WfE (a : JVal) : Prop := ∃ f, jwf f a = true

/-- The field relation induced by the matching: equal keys, equivalent
values. -/
def RJE (p q : String × JVal) : Prop := p.1 = q.1 ∧ EqE p.2 q.2

/-- The strict key order used to identify sorted arrangements. -/
def fieldLt (p q : String × JVal) : Prop := keyLe p q ∧ p.1 ≠ q.1

/-- Duplicate-free keys over a field list. -/
def NodupKeys (l : List (String × JVal)) : Prop := (l.map Prod.fst).Nodup

/-! ## Concrete fixtures used by counterexamples and witnesses -/

/-- A cyclic but everywhere-defined scope: a -> b -> a. -/
def cycVars : String → Option String := fun k =>
  if k = "a" then some "\x7b\x7bb\x7d\x7d"
  else if k = "b" then some "\x7b\x7ba\x7d\x7d"
  else none

/-- A scope defining only `a`. -/
def oneVar : String → Option String := fun k => if k = "a" then some "1" else none

/-- A 200 OK response with no headers and a null body. -/
def actual200 : ExecutedHttpResponse :=
  { statusCode := 200, statusText := "OK", headers := [], body := .jnull,
    rawBody := "", durationMs := 0 }

/-- An expected response whose body is the string "42" and which declares no
content type. -/
def exp42 : ExpectedResponse :=
  { statusCode := 200, statusText := none, headers := [], body := .jstr "42",
    localVariables := { fileVariables := [] } }

/-- An empty GET request fixture. -/
def emptyReq : HttpReq :=
  { method := "GET", url := "/", headers := [], body := none, name := none,
    blockVariables := { fileVariables := [] }, expectedResponse := none }

/-- A numbered inline resolved-unit fixture. -/
def mkUnit (i : Nat) : ResolvedUnit :=
  { sourceType := "inline", sourceName := "w", filePath := none,
    requestIndex := i, request := emptyReq }

/-- An executor stub that always throws. -/
def failExec : HttpExec := fun _ => .error "boom"

/-- An executed-unit stub for an always-succeeding executor. -/
def dummyExecuted (u : ResolvedUnit) : ExecutedUnit :=
  { sourceType := u.sourceType, sourceName := u.sourceName,
    requestIndex := u.requestIndex, requestName := u.request.name,
    request := { method := u.request.method, url := u.request.url, headers := [], body := none },
    response := actual200 }

/-- An executor stub that always succeeds with a 200 response. -/
def okExec : HttpExec := fun u => .ok (dummyExecuted u)

/-- The real (total) comparator as an injected collaborator. -/
def realComp : CompFn := fun ctx => .ok (compare ctx)

/-- A request whose url is `/{{x}}` with no block variables. -/
def shadowReq1 : HttpReq := { emptyReq with url := "/\x7b\x7bx\x7d\x7d" }

/-- A request whose url is `/{{x}}` and whose block overrides x=2. -/
def shadowReq2 : HttpReq :=
  { emptyReq with
      url := "/\x7b\x7bx\x7d\x7d"
      blockVariables := { fileVariables := [{ key := "x", value := "2" }] } }

/-- A three-request source: file scope sets x=1, the second request's block
overrides x=2; each url is `/{{x}}`. -/
def shadowSource : ParsedHttpSource :=
  { sourceType := "inline", sourceName := "shadow", filePath := none,
    ast :=
      { fileScopedVariables := none,
        globalVariables := { fileVariables := [{ key := "x", value := "1" }] },
        requests := [shadowReq1, shadowReq2, shadowReq1] } }

/-- The resolved units of `shadowSource`: urls /1, /2, /1 (the second
request's block shadows the file scope; the others are untouched by it). -/
def shadowResolvedUnits : List ResolvedUnit :=
  [ { sourceType := "inline", sourceName := "shadow", filePath := none, requestIndex := 0,
      request := { shadowReq1 with url := "/1" } },
    { sourceType := "inline", sourceName := "shadow", filePath := none, requestIndex := 1,
      request := { shadowReq2 with url := "/2" } },
    { sourceType := "inline", sourceName := "shadow", filePath := none, requestIndex := 2,
      request := { shadowReq1 with url := "/1" } } ]

/-- The expected/actual JSON object bodies of the C8 example,
`{"id":1,"name":"A"}` against `{"name":"A","id":1}`. -/
def objIdName : List (String × JVal) := [("id", .jnum 1), ("name", .jstr "A")]

/-- The reordered counterpart of `objIdName`. -/
def objNameId : List (String × JVal) := [("name", .jstr "A"), ("id", .jnum 1)]

/-- Three unit fixtures. -/
def threeUnits : List ResolvedUnit := [mkUnit 0, mkUnit 1, mkUnit 2]

/-- Five unit fixtures. -/
def fiveUnits : List ResolvedUnit := [mkUnit 0, mkUnit 1, mkUnit 2, mkUnit 3, mkUnit 4]

/-- A sequential configuration with bail threshold 1. -/
def cfgSeqBail1 : OrchestratorConfig :=
  { bail := some 1, maxRequests := none, requestExecutionStrategy := "runInBand" }

/-- A concurrent configuration with a max-requests cap of 2. -/
def cfgConcMax2 : OrchestratorConfig :=
  { bail := none, maxRequests := some 2, requestExecutionStrategy := "concurrent" }

/-! # Theorems -/

/-! ## Claim C4: default comparison policy -/

/-- C4: for every actual response compared with no expected-response block,
the comparison checks only that the actual status code equals 200: it passes
with empty mismatches when the status is 200, and otherwise contains exactly
one mismatch whose field is statusCode with expected 200 and actual the real
status. -/
theorem C4_default_status_only (actual : ExecutedHttpResponse) (strategyOverride : Option String) :
    compare { expectedResponse := none, actualResponse := actual, strategy := strategyOverride } =
      { passed := decide (actual.statusCode = 200),
        strategy := strategyOverride.getD "exact",
        mismatches :=
          if actual.statusCode = 200 then []
          else [statusMismatch 200 actual.statusCode] } := by
  by_cases h : actual.statusCode = 200 <;>
    · unfold compare compareStatus statusMismatch
      norm_num [h]
      try simp [Ne.symm h]

/-! ## Claim C9: expected-block status and header checks -/

/-- The header-map lookup after folding over the actual headers is `none`
exactly when the accumulator was `none` and no actual header carries the
lowercased name. -/
theorem headerMapGet_fold_isNone (A : List HttpHdr) :
    ∀ (acc : Option String) (n : String),
      (A.foldl (fun acc h => if lowerStr h.name = n then some h.value else acc) acc).isNone
        = (acc.isNone && A.all (fun h => lowerStr h.name != n)) := by
  induction A with
  | nil => intro acc n; simp
  | cons h t ih =>
      intro acc n
      simp only [List.foldl_cons, List.all_cons]
      rw [ih]
      by_cases hh : lowerStr h.name = n
      · simp [hh]
      · have hb : (lowerStr h.name == n) = false := beq_eq_false_iff_ne.mpr hh
        simp [bne, hh, hb, Bool.and_assoc]

/-- The comparator's header loop appends exactly the per-header verdicts of
the expected headers. -/
theorem compareHeadersGo_eq (A : List HttpHdr) :
    ∀ (E : List HttpHdr) (ms : List Mismatch),
      compareHeadersGo A E ms = ms ++ E.filterMap (headerVerdict A) := by
  intro E
  induction E with
  | nil => intro ms; simp [compareHeadersGo]
  | cons h rest ih =>
      intro ms
      unfold compareHeadersGo
      cases hmg : headerMapGet A (lowerStr h.name) with
      | none =>
          simp only [List.filterMap_cons, headerVerdict, hmg, ih, missingHeaderMismatch]
          simp
      | some av =>
          by_cases hv : av = h.value <;>
            · simp only [List.filterMap_cons, headerVerdict, hmg, ih, headerValueMismatch]
              simp [hv]

/-- C9: the statusCode check runs only for a positive expected status and
requires exact equality; header checks cover only the expected-listed
headers, match names case-insensitively, and produce an actual=null mismatch
for an absent header and a two-sided mismatch for a differing value. -/
theorem C9_status_and_header_checks :
    (∀ (e a : Int) (ms : List Mismatch),
        compareStatus e a ms =
          ms ++ (if 0 < e then (if e = a then [] else [statusMismatch e a]) else [])) ∧
    (∀ (E A : List HttpHdr) (ms : List Mismatch),
        compareHeaders E A ms = ms ++ E.filterMap (headerVerdict A)) ∧
    (∀ (A : List HttpHdr) (n : String),
        (headerMapGet A n).isNone = A.all (fun h => lowerStr h.name != n)) := by
  refine ⟨?_, ?_, ?_⟩
  · intro e a ms
    unfold compareStatus statusMismatch
    by_cases h1 : e ≤ 0
    · simp [h1, not_lt.mpr h1]
    · have h2 : 0 < e := lt_of_not_le h1
      by_cases h3 : e = a <;> simp [h1, h2, h3]
  · intro E A ms
    unfold compareHeaders
    cases E with
    | nil => simp
    | cons h rest => simp [compareHeadersGo_eq]
  · intro A n
    unfold headerMapGet
    rw [headerMapGet_fold_isNone]
    simp

/-! ## Claim C1: per-unit exception capture -/

/-- The result of a single unit always carries that unit. -/
theorem executeSingleUnit_unit (exec : HttpExec) (comp : CompFn) (u : ResolvedUnit) :
    (executeSingleUnit exec comp u).unit = u := by
  unfold executeSingleUnit
  split
  · rfl
  · split <;> rfl

/-- Null-field invariants of a single-unit result. -/
theorem executeSingleUnit_invariants (exec : HttpExec) (comp : CompFn) (u : ResolvedUnit) :
    ((executeSingleUnit exec comp u).executedUnit = none
        ↔ (executeSingleUnit exec comp u).error ≠ none) ∧
    ((executeSingleUnit exec comp u).comparison = none
        ↔ (executeSingleUnit exec comp u).error ≠ none) := by
  unfold executeSingleUnit
  split
  · simp
  · split <;> simp

/-- Every sequential result is the single-unit result of some dispatched
unit. -/
theorem mem_executeRunInBand (cfg : OrchestratorConfig) (exec : HttpExec) (comp : CompFn) :
    ∀ (units : List ResolvedUnit) (failed : Nat) (r : ExecutionResult),
      r ∈ executeRunInBand cfg exec comp units failed →
      ∃ u ∈ units, r = executeSingleUnit exec comp u := by
  intro units
  induction units with
  | nil => intro failed r hr; simp [executeRunInBand] at hr
  | cons u rest ih =>
      intro failed r hr
      cases hb : cfg.bail with
      | none =>
          simp only [executeRunInBand, hb] at hr
          rcases List.mem_cons.mp hr with h | h
          · exact ⟨u, List.mem_cons_self u rest, h⟩
          · obtain ⟨w, hw, hrw⟩ := ih _ r h
            exact ⟨w, List.mem_cons_of_mem u hw, hrw⟩
      | some b =>
          simp only [executeRunInBand, hb] at hr
          split at hr
          all_goals
            rcases List.mem_cons.mp hr with h | h
            · exact ⟨u, List.mem_cons_self u rest, h⟩
            · first
                | exact absurd h (List.not_mem_nil r)
                | (obtain ⟨w, hw, hrw⟩ := ih _ r h
                   exact ⟨w, List.mem_cons_of_mem u hw, hrw⟩)

/-- Every produced result is the single-unit result of some unit. -/
theorem mem_execute (cfg : OrchestratorConfig) (exec : HttpExec) (comp : CompFn)
    (units : List ResolvedUnit) (r : ExecutionResult)
    (hr : r ∈ execute cfg exec comp units) :
    ∃ u, r = executeSingleUnit exec comp u := by
  unfold execute at hr
  by_cases hs : cfg.requestExecutionStrategy = "concurrent"
  · rw [if_pos hs] at hr
    obtain ⟨u, _, hu⟩ := List.mem_map.mp hr
    exact ⟨u, hu.symm⟩
  · rw [if_neg hs] at hr
    obtain ⟨u, _, hu⟩ := mem_executeRunInBand cfg exec comp _ 0 r hr
    exact ⟨u, hu⟩

/-- C1: any exception of the executor or the comparator yields the result
`{passed := false, executedUnit := null, comparison := null, error := the
captured error}` for that unit and is never propagated (the dispatchers are
total functions built from `executeSingleUnit`); moreover in every produced
execution result, executedUnit is null iff error is non-null, and comparison
is null iff error is non-null. -/
theorem C1_exception_capture :
    (∀ (exec : HttpExec) (comp : CompFn) (u : ResolvedUnit) (e : String),
        exec u = .error e →
        executeSingleUnit exec comp u =
          { unit := u, passed := false, executedUnit := none, comparison := none,
            error := some e }) ∧
    (∀ (exec : HttpExec) (comp : CompFn) (u : ResolvedUnit) (eu : ExecutedUnit) (e : String),
        exec u = .ok eu →
        comp { expectedResponse := u.request.expectedResponse,
               actualResponse := eu.response, strategy := none } = .error e →
        executeSingleUnit exec comp u =
          { unit := u, passed := false, executedUnit := none, comparison := none,
            error := some e }) ∧
    (∀ (cfg : OrchestratorConfig) (exec : HttpExec) (comp : CompFn)
        (units : List ResolvedUnit) (r : ExecutionResult),
        r ∈ execute cfg exec comp units →
        ((r.executedUnit = none ↔ r.error ≠ none) ∧
         (r.comparison = none ↔ r.error ≠ none))) := by
  refine ⟨?_, ?_, ?_⟩
  · intro exec comp u e he
    unfold executeSingleUnit
    rw [he]
  · intro exec comp u eu e he hc
    unfold executeSingleUnit
    rw [he]
    dsimp only
    rw [hc]
  · intro cfg exec comp units r hr
    obtain ⟨u, hu⟩ := mem_execute cfg exec comp units r hr
    rw [hu]
    exact executeSingleUnit_invariants exec comp u

/-- C1 witness: a throwing executor on a concrete unit produces exactly the
captured-error result. -/
theorem C1_exception_capture_witness :
    failExec (mkUnit 0) = .error "boom" ∧
    executeSingleUnit failExec realComp (mkUnit 0) =
      { unit := mkUnit 0, passed := false, executedUnit := none, comparison := none,
        error := some "boom" } :=
  ⟨rfl, C1_exception_capture.1 failExec realComp (mkUnit 0) "boom" rfl⟩

/-! ## Claims C6, C7, C10: orchestrator scheduling -/

/-- Counting failures distributes over cons. -/
theorem nFail_cons (r : ExecutionResult) (rs : List ExecutionResult) :
    nFail (r :: rs) = nFail rs + (if r.passed then 0 else 1) := by
  unfold nFail
  rw [List.countP_cons]
  by_cases h : r.passed <;> simp [h]

/-- The failure count is unchanged by a passing result. -/
theorem stepFail_pass (result : ExecutionResult) (h : result.passed = true) (f : Nat) :
    stepFail result f = f := by
  simp [stepFail, h]

/-- The failure count steps up on a failing result. -/
theorem stepFail_fail (result : ExecutionResult) (h : result.passed = false) (f : Nat) :
    stepFail result f = f + 1 := by
  simp [stepFail, h]

/-- A passing head does not contribute to the failure count. -/
theorem nFail_cons_pass (r : ExecutionResult) (h : r.passed = true) (rs : List ExecutionResult) :
    nFail (r :: rs) = nFail rs := by
  rw [nFail_cons, h]
  simp

/-- A failing head contributes one to the failure count. -/
theorem nFail_cons_fail (r : ExecutionResult) (h : r.passed = false) (rs : List ExecutionResult) :
    nFail (r :: rs) = nFail rs + 1 := by
  rw [nFail_cons, h]
  simp

/-- Without a bail threshold the sequential dispatcher executes every unit
in order. -/
theorem runInBand_noBail (cfg : OrchestratorConfig) (exec : HttpExec) (comp : CompFn)
    (hb : cfg.bail = none) :
    ∀ (units : List ResolvedUnit) (failed : Nat),
      executeRunInBand cfg exec comp units failed =
        units.map (executeSingleUnit exec comp) := by
  intro units
  induction units with
  | nil => intro failed; simp [executeRunInBand]
  | cons u rest ih =>
      intro failed
      simp only [executeRunInBand, hb, List.map_cons]
      rw [ih]

/-- The sequential dispatcher's results are the single-unit results of a
prefix of its input, in order. -/
theorem runInBand_map_unit (cfg : OrchestratorConfig) (exec : HttpExec) (comp : CompFn) :
    ∀ (units : List ResolvedUnit) (failed : Nat),
      (executeRunInBand cfg exec comp units failed).map (·.unit) =
        units.take (executeRunInBand cfg exec comp units failed).length := by
  intro units
  induction units with
  | nil => intro failed; simp [executeRunInBand]
  | cons u rest ih =>
      intro failed
      cases hb : cfg.bail with
      | none =>
          simp only [executeRunInBand, hb, List.map_cons, List.length_cons,
                     List.take_succ_cons]
          rw [executeSingleUnit_unit, ih]
      | some b =>
          simp only [executeRunInBand, hb]
          split
          · simp [executeSingleUnit_unit]
          · simp only [List.map_cons, List.length_cons, List.take_succ_cons]
            rw [executeSingleUnit_unit, ih]

/-- The head equation of the sequential dispatcher when the bail threshold
is reached by the head result. -/
theorem runInBand_cons_stop (cfg : OrchestratorConfig) (exec : HttpExec) (comp : CompFn)
    (u : ResolvedUnit) (rest : List ResolvedUnit) (failed b : Nat)
    (hb : cfg.bail = some b)
    (hstop : b ≤ stepFail (executeSingleUnit exec comp u) failed) :
    executeRunInBand cfg exec comp (u :: rest) failed = [executeSingleUnit exec comp u] := by
  simp only [executeRunInBand, hb]
  rw [if_pos hstop]

/-- The head equation of the sequential dispatcher when the bail threshold
is not yet reached. -/
theorem runInBand_cons_go (cfg : OrchestratorConfig) (exec : HttpExec) (comp : CompFn)
    (u : ResolvedUnit) (rest : List ResolvedUnit) (failed b : Nat)
    (hb : cfg.bail = some b)
    (hgo : ¬ b ≤ stepFail (executeSingleUnit exec comp u) failed) :
    executeRunInBand cfg exec comp (u :: rest) failed =
      executeSingleUnit exec comp u ::
        executeRunInBand cfg exec comp rest (stepFail (executeSingleUnit exec comp u) failed) := by
  simp only [executeRunInBand, hb]
  rw [if_neg hgo]

/-- Exactness of the sequential bail threshold: starting below the
threshold, the cumulative failure count of the produced results never
exceeds it, equals it whenever the run stopped early, and stays strictly
below it before each dispatched unit. -/
theorem runInBand_bail_exact (cfg : OrchestratorConfig) (exec : HttpExec) (comp : CompFn)
    (b : Nat) (hb : cfg.bail = some b) :
    ∀ (units : List ResolvedUnit) (failed : Nat), failed < b →
      (failed + nFail (executeRunInBand cfg exec comp units failed) ≤ b) ∧
      ((executeRunInBand cfg exec comp units failed).length < units.length →
        failed + nFail (executeRunInBand cfg exec comp units failed) = b) ∧
      (∀ j < (executeRunInBand cfg exec comp units failed).length,
        failed + nFail ((executeRunInBand cfg exec comp units failed).take j) < b) := by
  intro units
  induction units with
  | nil =>
      intro failed hf
      simp [executeRunInBand, nFail, hf.le]
  | cons u rest ih =>
      intro failed hf
      cases hp : (executeSingleUnit exec comp u).passed with
      | true =>
          -- the unit passed: the failure count is unchanged
          rw [runInBand_cons_go cfg exec comp u rest failed b hb
                (by rw [stepFail_pass _ hp]; omega)]
          rw [stepFail_pass _ hp]
          obtain ⟨iha, ihb, ihc⟩ := ih failed hf
          refine ⟨?_, ?_, ?_⟩
          · rw [nFail_cons_pass _ hp]
            omega
          · intro hlen
            rw [nFail_cons_pass _ hp]
            simp only [List.length_cons] at hlen
            exact ihb (by omega)
          · intro j hj
            cases j with
            | zero => simpa [nFail] using hf
            | succ j' =>
                simp only [List.length_cons] at hj
                rw [List.take_succ_cons, nFail_cons_pass _ hp]
                exact ihc j' (by omega)
      | false =>
          -- the unit failed: the count steps to failed + 1
          by_cases hcond : b ≤ failed + 1
          · rw [runInBand_cons_stop cfg exec comp u rest failed b hb
                  (by rw [stepFail_fail _ hp]; omega)]
            refine ⟨?_, ?_, ?_⟩
            · rw [nFail_cons_fail _ hp]
              simp only [nFail, List.countP_nil]
              omega
            · intro _
              rw [nFail_cons_fail _ hp]
              simp only [nFail, List.countP_nil]
              omega
            · intro j hj
              simp only [List.length_cons, List.length_nil] at hj
              interval_cases j
              simpa [nFail] using hf
          · have hf' : failed + 1 < b := by omega
            rw [runInBand_cons_go cfg exec comp u rest failed b hb
                  (by rw [stepFail_fail _ hp]; omega)]
            rw [stepFail_fail _ hp]
            obtain ⟨iha, ihb, ihc⟩ := ih (failed + 1) hf'
            refine ⟨?_, ?_, ?_⟩
            · rw [nFail_cons_fail _ hp]
              omega
            · intro hlen
              rw [nFail_cons_fail _ hp]
              simp only [List.length_cons] at hlen
              have := ihb (by omega)
              omega
            · intro j hj
              cases j with
              | zero => simpa [nFail] using hf
              | succ j' =>
                  simp only [List.length_cons] at hj
                  rw [List.take_succ_cons, nFail_cons_fail _ hp]
                  have := ihc j' (by omega)
                  omega

/-- With bail threshold 1 the sequential dispatcher stops right after the
first failing unit. -/
theorem runInBand_bail_one (cfg : OrchestratorConfig) (exec : HttpExec) (comp : CompFn)
    (hb : cfg.bail = some 1) :
    ∀ units : List ResolvedUnit,
      units.findIdx (fun u => !(executeSingleUnit exec comp u).passed) < units.length →
      (executeRunInBand cfg exec comp units 0).length =
        units.findIdx (fun u => !(executeSingleUnit exec comp u).passed) + 1 := by
  intro units
  induction units with
  | nil => intro h; simp at h
  | cons u rest ih =>
      intro hlt
      cases hp : (executeSingleUnit exec comp u).passed with
      | true =>
          have hfi : (u :: rest).findIdx (fun u => !(executeSingleUnit exec comp u).passed)
              = rest.findIdx (fun u => !(executeSingleUnit exec comp u).passed) + 1 := by
            rw [List.findIdx_cons]
            simp [hp]
          rw [runInBand_cons_go cfg exec comp u rest 0 1 hb
                (by rw [stepFail_pass _ hp]; omega)]
          rw [stepFail_pass _ hp]
          rw [hfi] at hlt ⊢
          simp only [List.length_cons] at hlt
          simp only [List.length_cons]
          rw [ih (by omega)]
      | false =>
          have hfi : (u :: rest).findIdx (fun u => !(executeSingleUnit exec comp u).passed) = 0 := by
            rw [List.findIdx_cons]
            simp [hp]
          rw [runInBand_cons_stop cfg exec comp u rest 0 1 hb
                (by rw [stepFail_fail _ hp])]
          rw [hfi]
          rfl

/-- C6: in sequential mode with bail threshold b at least 1, results are the
in-order single-unit results of a prefix of the units, the cumulative
failure count never exceeds b, equals b exactly when the run halted before
the end, and stays strictly below b before every dispatched unit; with
bail 1 the result count is the index of the first failing unit plus one.
The sequential dispatcher is what `execute` runs for a non-concurrent
strategy. -/
theorem C6_sequential_bail (cfg : OrchestratorConfig) (exec : HttpExec) (comp : CompFn)
    (units : List ResolvedUnit) (b : Nat) (hb : cfg.bail = some b) (h1 : 1 ≤ b) :
    ((executeRunInBand cfg exec comp units 0).map (·.unit) =
        units.take (executeRunInBand cfg exec comp units 0).length) ∧
    nFail (executeRunInBand cfg exec comp units 0) ≤ b ∧
    ((executeRunInBand cfg exec comp units 0).length < units.length →
      nFail (executeRunInBand cfg exec comp units 0) = b) ∧
    (∀ j < (executeRunInBand cfg exec comp units 0).length,
      nFail ((executeRunInBand cfg exec comp units 0).take j) < b) ∧
    (b = 1 →
      units.findIdx (fun u => !(executeSingleUnit exec comp u).passed) < units.length →
      (executeRunInBand cfg exec comp units 0).length =
        units.findIdx (fun u => !(executeSingleUnit exec comp u).passed) + 1) ∧
    (cfg.requestExecutionStrategy ≠ "concurrent" → cfg.maxRequests = none →
      execute cfg exec comp units = executeRunInBand cfg exec comp units 0) := by
  obtain ⟨ha, hbx, hc⟩ := runInBand_bail_exact cfg exec comp b hb units 0 h1
  refine ⟨runInBand_map_unit cfg exec comp units 0, by simpa using ha,
          fun h => by simpa using hbx h, fun j hj => by simpa using hc j hj,
          fun hb1 hf => by
            subst hb1
            exact runInBand_bail_one cfg exec comp hb units hf,
          fun hs hm => by
            unfold execute applyMaxRequests
            rw [hm, if_neg hs]⟩

/-- C6 witness: with bail 1, a throwing executor, and three units, exactly
one result is produced (the first unit fails at index 0). -/
theorem C6_sequential_bail_witness :
    cfgSeqBail1.bail = some 1 ∧ (1 : Nat) ≤ 1 ∧
    threeUnits.findIdx (fun u => !(executeSingleUnit failExec realComp u).passed)
      < threeUnits.length ∧
    (executeRunInBand cfgSeqBail1 failExec realComp threeUnits 0).length =
      threeUnits.findIdx (fun u => !(executeSingleUnit failExec realComp u).passed) + 1 :=
  ⟨rfl, le_refl 1, by decide,
   (C6_sequential_bail cfgSeqBail1 failExec realComp threeUnits 1 rfl (le_refl 1)).2.2.2.2.1
     rfl (by decide)⟩

/-- C7: a max-requests cap m at least 1 truncates the unit list to its
first min(m, n) units before scheduling; under every strategy the produced
results are in-order single-unit results of a prefix of that truncation (so
excess units are never executed and never appear in results), and under the
concurrent strategy, or whenever no bail threshold is set, exactly the
min(m, n) capped units are dispatched. -/
theorem C7_max_requests_cap (cfg : OrchestratorConfig) (exec : HttpExec) (comp : CompFn)
    (units : List ResolvedUnit) (m : Nat) (hm : cfg.maxRequests = some m) (_h1 : 1 ≤ m) :
    applyMaxRequests cfg units = units.take m ∧
    ((execute cfg exec comp units).map (·.unit) =
      (units.take m).take (execute cfg exec comp units).length) ∧
    (cfg.requestExecutionStrategy = "concurrent" →
      (execute cfg exec comp units).map (·.unit) = units.take m ∧
      (execute cfg exec comp units).length = min m units.length) ∧
    (cfg.bail = none →
      (execute cfg exec comp units).map (·.unit) = units.take m ∧
      (execute cfg exec comp units).length = min m units.length) := by
  have happly : applyMaxRequests cfg units = units.take m := by
    unfold applyMaxRequests
    rw [hm]
  have hconc_map : ∀ l : List ResolvedUnit,
      (executeConcurrent exec comp l).map (·.unit) = l := by
    intro l
    unfold executeConcurrent
    rw [List.map_map]
    have : ((fun r : ExecutionResult => r.unit) ∘ executeSingleUnit exec comp) = id := by
      funext u
      exact executeSingleUnit_unit exec comp u
    rw [this, List.map_id]
  refine ⟨happly, ?_, ?_, ?_⟩
  · unfold execute
    rw [happly]
    by_cases hs : cfg.requestExecutionStrategy = "concurrent"
    · rw [if_pos hs, hconc_map]
      have hlen : (executeConcurrent exec comp (units.take m)).length = (units.take m).length := by
        unfold executeConcurrent
        rw [List.length_map]
      rw [hlen, List.take_length]
    · rw [if_neg hs]
      exact runInBand_map_unit cfg exec comp (units.take m) 0
  · intro hs
    unfold execute
    rw [happly, if_pos hs, hconc_map]
    refine ⟨rfl, ?_⟩
    unfold executeConcurrent
    rw [List.length_map, List.length_take]
  · intro hbnone
    unfold execute
    rw [happly]
    by_cases hs : cfg.requestExecutionStrategy = "concurrent"
    · rw [if_pos hs, hconc_map]
      refine ⟨rfl, ?_⟩
      unfold executeConcurrent
      rw [List.length_map, List.length_take]
    · rw [if_neg hs, runInBand_noBail cfg exec comp hbnone]
      constructor
      · rw [List.map_map]
        have : ((fun r : ExecutionResult => r.unit) ∘ executeSingleUnit exec comp) = id := by
          funext u
          exact executeSingleUnit_unit exec comp u
        rw [this, List.map_id]
      · rw [List.length_map, List.length_take]

/-- C7 witness: maxRequests 2 over five units dispatches exactly two under
the concurrent strategy. -/
theorem C7_max_requests_cap_witness :
    cfgConcMax2.maxRequests = some 2 ∧ (1 : Nat) ≤ 2 ∧
    cfgConcMax2.requestExecutionStrategy = "concurrent" ∧
    (execute cfgConcMax2 okExec realComp fiveUnits).map (·.unit) = fiveUnits.take 2 ∧
    (execute cfgConcMax2 okExec realComp fiveUnits).length = min 2 fiveUnits.length :=
  ⟨rfl, by decide, rfl,
   ((C7_max_requests_cap cfgConcMax2 okExec realComp fiveUnits 2 rfl (by decide)).2.2.1 rfl).1,
   ((C7_max_requests_cap cfgConcMax2 okExec realComp fiveUnits 2 rfl (by decide)).2.2.1 rfl).2⟩

/-- C10: a bail or maxRequests option that is not a positive integer is
normalized to null and treated as absent: a sequential run built from such
a bail value never halts early (every unit yields a result), and an execute
run built from such a maxRequests value (with no bail) executes every unit
under either strategy. -/
theorem C10_nonpositive_normalized (q : ℚ) (hq : q.isInt = false ∨ q ≤ 0) :
    normalizeBail (some q) = none ∧
    normalizeMaxRequests (some q) = none ∧
    (∀ (raw : OrchestratorRawOptions) (exec : HttpExec) (comp : CompFn)
        (units : List ResolvedUnit), raw.bail = some q →
      (executeRunInBand (mkOrchestrator raw) exec comp units 0).length = units.length) ∧
    (∀ (raw : OrchestratorRawOptions) (exec : HttpExec) (comp : CompFn)
        (units : List ResolvedUnit), raw.maxRequests = some q → raw.bail = none →
      (execute (mkOrchestrator raw) exec comp units).length = units.length) := by
  have hnb : normalizeBail (some q) = none := by
    show (if q.isInt = false ∨ q ≤ 0 then none else some q.num.toNat) = none
    rw [if_pos hq]
  have hnm : normalizeMaxRequests (some q) = none := by
    show (if q.isInt = false ∨ q ≤ 0 then none else some q.num.toNat) = none
    rw [if_pos hq]
  refine ⟨hnb, hnm, ?_, ?_⟩
  · intro raw exec comp units hraw
    have hcfg : (mkOrchestrator raw).bail = none := by
      unfold mkOrchestrator
      rw [hraw]
      exact hnb
    rw [runInBand_noBail (mkOrchestrator raw) exec comp hcfg units 0, List.length_map]
  · intro raw exec comp units hraw hrawb
    have hcfgm : (mkOrchestrator raw).maxRequests = none := by
      unfold mkOrchestrator
      rw [hraw]
      exact hnm
    have hcfgb : (mkOrchestrator raw).bail = none := by
      unfold mkOrchestrator
      rw [hrawb]
      rfl
    unfold execute applyMaxRequests
    rw [hcfgm]
    by_cases hs : (mkOrchestrator raw).requestExecutionStrategy = "concurrent"
    · rw [if_pos hs]
      unfold executeConcurrent
      rw [List.length_map]
    · rw [if_neg hs, runInBand_noBail (mkOrchestrator raw) exec comp hcfgb units 0,
          List.length_map]

/-! ## Claim C3: strict-mode unresolved placeholders (corrected)

The claim asserts that strict mode fails both for undefined variables and
when the pass cap is reached with placeholders still present.  The code
throws only when a scan encounters an undefined variable; when the cap is
reached with every referenced variable defined (cyclic definitions), the
placeholders are returned verbatim without an error.  The counterexample
below exhibits this; the amended theorem characterizes exactly when strict
mode fails. -/

/-- C3 counterexample: with strict mode on and the cyclically defined scope
a -> b -> a, interpolating the placeholder for a succeeds after the default
10 passes and still retains a placeholder — no error naming it is thrown,
contradicting the claim that cap-exceeded placeholders fail under strict
mode. -/
theorem C3_cap_retains_placeholder_counterexample :
    interpolateString { throwOnUnresolved := true } cycVars "\x7b\x7ba\x7d\x7d"
        = .ok "\x7b\x7ba\x7d\x7d" ∧
    hasPlaceholder ("\x7b\x7ba\x7d\x7d" : String).data = true :=
  ⟨rfl, rfl⟩

/-- Every strict-mode error of a replace pass names an undefined variable. -/
theorem replaceGo_error_sound (vars : String → Option String) :
    ∀ (fuel : Nat) (cs : List Char) (e : String),
      replaceGo true vars fuel cs = .error e →
      ∃ n, vars n = none ∧ e = unresolvedMsg n := by
  intro fuel
  induction fuel with
  | zero => intro cs e h; simp [replaceGo] at h
  | succ fuel ih =>
      intro cs e h
      cases cs with
      | nil => simp [replaceGo] at h
      | cons c cs' =>
          simp only [replaceGo] at h
          cases hm : matchPlaceholder (c :: cs') with
          | some p =>
              obtain ⟨name, rest⟩ := p
              simp only [hm] at h
              cases hv : vars name with
              | none =>
                  simp only [hv, if_true] at h
                  refine ⟨name, hv, ?_⟩
                  injection h with h
                  exact h.symm
              | some repl =>
                  simp only [hv] at h
                  cases hr : replaceGo true vars fuel rest with
                  | error e' =>
                      simp only [hr] at h
                      injection h with h
                      subst h
                      exact ih rest e' hr
                  | ok out =>
                      obtain ⟨o, ch⟩ := out
                      simp only [hr] at h
                      exact Except.noConfusion h
          | none =>
              simp only [hm] at h
              cases hr : replaceGo true vars fuel cs' with
              | error e' =>
                  simp only [hr] at h
                  injection h with h
                  subst h
                  exact ih cs' e' hr
              | ok out =>
                  obtain ⟨o, ch⟩ := out
                  simp only [hr] at h
                  exact Except.noConfusion h

/-- A replace pass under strict mode throws whenever the scan finds a
placeholder whose variable is undefined. -/
theorem replaceGo_error_complete (vars : String → Option String) :
    ∀ (fuel : Nat) (cs : List Char),
      (∃ n, n ∈ scanGo fuel cs ∧ vars n = none) →
      ∃ e, replaceGo true vars fuel cs = .error e := by
  intro fuel
  induction fuel with
  | zero => intro cs h; simp [scanGo] at h
  | succ fuel ih =>
      intro cs h
      cases cs with
      | nil => simp [scanGo] at h
      | cons c cs' =>
          obtain ⟨n, hmem, hn⟩ := h
          simp only [scanGo] at hmem
          cases hm : matchPlaceholder (c :: cs') with
          | some p =>
              obtain ⟨name, rest⟩ := p
              rw [hm] at hmem
              cases hv : vars name with
              | none =>
                  exact ⟨unresolvedMsg name, by simp [replaceGo, hm, hv]⟩
              | some repl =>
                  have hn' : n ∈ scanGo fuel rest := by
                    rcases List.mem_cons.mp hmem with h | h
                    · subst h
                      rw [hv] at hn
                      cases hn
                    · exact h
                  obtain ⟨e, he⟩ := ih rest ⟨n, hn', hn⟩
                  exact ⟨e, by simp [replaceGo, hm, hv, he]⟩
          | none =>
              rw [hm] at hmem
              obtain ⟨e, he⟩ := ih cs' ⟨n, hmem, hn⟩
              exact ⟨e, by simp [replaceGo, hm, he]⟩

/-- Every strict-mode error of the bounded interpolation loop names an
undefined variable. -/
theorem interpolateGo_error_sound (vars : String → Option String) :
    ∀ (passes : Nat) (cs : List Char) (e : String),
      interpolateGo true vars passes cs = .error e →
      ∃ n, vars n = none ∧ e = unresolvedMsg n := by
  intro passes
  induction passes with
  | zero => intro cs e h; simp [interpolateGo] at h
  | succ passes ih =>
      intro cs e h
      simp only [interpolateGo] at h
      cases hr : replacePass true vars cs with
      | error e' =>
          simp only [hr] at h
          injection h with h
          subst h
          exact replaceGo_error_sound vars cs.length cs e' hr
      | ok out =>
          obtain ⟨out, changed⟩ := out
          simp only [hr] at h
          by_cases hc : (decide (changed = false) || decide (hasPlaceholder out = false)) = true
          · rw [if_pos hc] at h
            cases h
          · rw [if_neg hc] at h
            exact ih out e h

/-- The bounded interpolation loop under strict mode fails when the input
itself contains a placeholder whose variable is undefined (at least one
pass runs). -/
theorem interpolateGo_error_complete (vars : String → Option String)
    (passes : Nat) (h1 : 1 ≤ passes) (cs : List Char)
    (hex : ∃ n, n ∈ scanPlaceholders cs ∧ vars n = none) :
    ∃ e, interpolateGo true vars passes cs = .error e := by
  obtain ⟨p, rfl⟩ : ∃ p, passes = p + 1 := ⟨passes - 1, by omega⟩
  obtain ⟨e, herr⟩ := replaceGo_error_complete vars cs.length cs hex
  exact ⟨e, by simp [interpolateGo, replacePass, herr]⟩

/-- C3 (amended): with strict mode enabled, resolution of a string fails
with an error naming an undefined placeholder exactly in the undefined-in-
scope case: every error names a variable that is undefined in scope, and
an undefined placeholder occurring in the input makes resolution fail; but
when the pass cap is reached with placeholders still present whose
variables are all defined (cyclic definitions), the placeholders are left
verbatim without an error, falling back to the lenient policy rather than
the strict one. -/
theorem C3_strict_mode_failures (vars : String → Option String)
    (opts : VariableResolverOptions) (hstrict : opts.throwOnUnresolved = true) :
    (∀ (s e : String), interpolateString opts vars s = .error e →
        ∃ n, vars n = none ∧ e = unresolvedMsg n) ∧
    (1 ≤ opts.maxInterpolationPasses →
      ∀ s : String, (∃ n, n ∈ scanPlaceholders s.data ∧ vars n = none) →
        ∃ e, interpolateString opts vars s = .error e ∧
             ∃ n, vars n = none ∧ e = unresolvedMsg n) := by
  constructor
  · intro s e h
    unfold interpolateString at h
    rw [hstrict] at h
    cases hg : interpolateGo true vars opts.maxInterpolationPasses s.data with
    | error e' =>
        rw [hg] at h
        cases h
        exact interpolateGo_error_sound vars opts.maxInterpolationPasses s.data e hg
    | ok out =>
        rw [hg] at h
        simp [Except.map] at h
  · intro hpasses s hex
    obtain ⟨e, he⟩ := interpolateGo_error_complete vars opts.maxInterpolationPasses hpasses s.data hex
    refine ⟨e, ?_, interpolateGo_error_sound vars opts.maxInterpolationPasses s.data e he⟩
    unfold interpolateString
    rw [hstrict, he]
    rfl

/-- C3 witness: strict-mode resolution of a single undefined placeholder
fails naming it. -/
theorem C3_strict_mode_failures_witness :
    ({ throwOnUnresolved := true } : VariableResolverOptions).throwOnUnresolved = true ∧
    1 ≤ ({ throwOnUnresolved := true } : VariableResolverOptions).maxInterpolationPasses ∧
    ("missing" ∈ scanPlaceholders ("\x7b\x7bmissing\x7d\x7d" : String).data
      ∧ oneVar "missing" = none) ∧
    ∃ e, interpolateString { throwOnUnresolved := true } oneVar "\x7b\x7bmissing\x7d\x7d"
            = .error e ∧
         ∃ n, oneVar n = none ∧ e = unresolvedMsg n :=
  ⟨rfl, by decide, ⟨by decide, rfl⟩,
   (C3_strict_mode_failures oneVar { throwOnUnresolved := true } rfl).2 (by decide)
     "\x7b\x7bmissing\x7d\x7d" ⟨"missing", by decide, rfl⟩⟩

/-- C10 witness: bail 0 means never halt (three failing units all produce
results), and maxRequests 0 executes every unit. -/
theorem C10_nonpositive_normalized_witness :
    ((0 : ℚ).isInt = false ∨ (0 : ℚ) ≤ 0) ∧
    (executeRunInBand
        (mkOrchestrator { bail := some 0, maxRequests := none,
                          requestExecutionStrategy := "runInBand" })
        failExec realComp threeUnits 0).length = threeUnits.length ∧
    (execute
        (mkOrchestrator { bail := none, maxRequests := some 0,
                          requestExecutionStrategy := "concurrent" })
        failExec realComp threeUnits).length = threeUnits.length :=
  ⟨Or.inr le_rfl,
   (C10_nonpositive_normalized 0 (Or.inr le_rfl)).2.2.1
     { bail := some 0, maxRequests := none, requestExecutionStrategy := "runInBand" }
     failExec realComp threeUnits rfl,
   (C10_nonpositive_normalized 0 (Or.inr le_rfl)).2.2.2
     { bail := none, maxRequests := some 0, requestExecutionStrategy := "concurrent" }
     failExec realComp threeUnits rfl rfl⟩

/-! ## Claim C2: layered variable scopes -/

/-- Specification of the resolver's per-source loop: on success it yields
one unit per request, in order, whose request is resolved under the file
scope merged with that request's own block scope. -/
theorem resolveUnitsGo_spec (opts : VariableResolverOptions) (s : ParsedHttpSource)
    (fv : String → Option String) :
    ∀ (reqs : List HttpReq) (idx : Nat) (us : List ResolvedUnit),
      resolveUnitsGo opts s fv idx reqs = .ok us →
      us.length = reqs.length ∧
      ∀ (i : Nat) (req : HttpReq), reqs.get? i = some req →
        ∃ u, us.get? i = some u ∧ u.requestIndex = idx + i ∧
          resolveRequest opts req
            (mergeVars fv (toVariableMap req.blockVariables.fileVariables)) = .ok u.request := by
  intro reqs
  induction reqs with
  | nil =>
      intro idx us h
      simp only [resolveUnitsGo] at h
      injection h with h
      subst h
      exact ⟨rfl, by intro i req hi; simp at hi⟩
  | cons req rest ih =>
      intro idx us h
      simp only [resolveUnitsGo] at h
      cases hr : resolveRequest opts req
          (mergeVars fv (toVariableMap req.blockVariables.fileVariables)) with
      | error e =>
          simp only [hr] at h
          exact Except.noConfusion h
      | ok rr =>
          simp only [hr] at h
          cases ht : resolveUnitsGo opts s fv (idx + 1) rest with
          | error e =>
              simp only [ht] at h
              exact Except.noConfusion h
          | ok tail =>
              simp only [ht] at h
              injection h with h
              subst h
              obtain ⟨ihlen, ihget⟩ := ih (idx + 1) tail ht
              refine ⟨by simpa using ihlen, ?_⟩
              intro i q hi
              cases i with
              | zero =>
                  simp only [List.get?_cons_zero] at hi
                  injection hi with hi
                  subst hi
                  exact ⟨_, rfl, by simp, hr⟩
              | succ i' =>
                  simp only [List.get?_cons_succ] at hi
                  obtain ⟨u, hu, hidx, hreq⟩ := ihget i' q hi
                  exact ⟨u, by simpa using hu, by omega, hreq⟩

/-- C2: placeholder resolution uses the merged scope in which block
variables shadow file variables (the merge returns the high-priority
binding whenever it exists); the expected-response block is resolved under
that merged scope further shadowed by its own locally declared variables;
each request of a source is resolved from the file scope plus only its own
block scope; and block variables of one request never affect another
request's resolution (two sources agreeing on file variables and on the
i-th request resolve that request identically). -/
theorem C2_scope_layering :
    (∀ (low high : String → Option String) (k : String),
        mergeVars low high k = match high k with | some v => some v | none => low k) ∧
    (∀ (opts : VariableResolverOptions) (s : ParsedHttpSource) (us : List ResolvedUnit),
        resolveSource opts s = .ok us →
        us.length = s.ast.requests.length ∧
        ∀ (i : Nat) (req : HttpReq), s.ast.requests.get? i = some req →
          ∃ u, us.get? i = some u ∧ u.requestIndex = i ∧
            resolveRequest opts req
              (mergeVars (toVariableMap (fileVarsOf s))
                (toVariableMap req.blockVariables.fileVariables)) = .ok u.request) ∧
    (∀ (opts : VariableResolverOptions) (req : HttpReq) (vars : String → Option String)
        (r : HttpReq) (er : ExpectedResponse),
        resolveRequest opts req vars = .ok r →
        req.expectedResponse = some er →
        ∃ er', resolveExpectedWith opts
                 (mergeVars vars (toVariableMap er.localVariables.fileVariables)) er = .ok er' ∧
               r.expectedResponse = some er') ∧
    (∀ (opts : VariableResolverOptions) (s₁ s₂ : ParsedHttpSource) (i : Nat) (req : HttpReq)
        (us₁ us₂ : List ResolvedUnit) (u₁ u₂ : ResolvedUnit),
        fileVarsOf s₁ = fileVarsOf s₂ →
        s₁.ast.requests.get? i = some req → s₂.ast.requests.get? i = some req →
        resolveSource opts s₁ = .ok us₁ → resolveSource opts s₂ = .ok us₂ →
        us₁.get? i = some u₁ → us₂.get? i = some u₂ →
        u₁.request = u₂.request) := by
  have hsource : ∀ (opts : VariableResolverOptions) (s : ParsedHttpSource) (us : List ResolvedUnit),
      resolveSource opts s = .ok us →
      us.length = s.ast.requests.length ∧
      ∀ (i : Nat) (req : HttpReq), s.ast.requests.get? i = some req →
        ∃ u, us.get? i = some u ∧ u.requestIndex = i ∧
          resolveRequest opts req
            (mergeVars (toVariableMap (fileVarsOf s))
              (toVariableMap req.blockVariables.fileVariables)) = .ok u.request := by
    intro opts s us h
    obtain ⟨hlen, hget⟩ :=
      resolveUnitsGo_spec opts s (toVariableMap (fileVarsOf s)) s.ast.requests 0 us h
    refine ⟨hlen, ?_⟩
    intro i req hi
    obtain ⟨u, hu, hidx, hreq⟩ := hget i req hi
    exact ⟨u, hu, by omega, hreq⟩
  refine ⟨fun low high k => rfl, hsource, ?_, ?_⟩
  · intro opts req vars r er h her
    unfold resolveRequest at h
    cases hu : interpolateString opts vars req.url with
    | error e =>
        simp only [hu] at h
        exact Except.noConfusion h
    | ok url =>
        simp only [hu] at h
        cases hh : interpHeaders opts vars req.headers with
        | error e =>
            simp only [hh] at h
            exact Except.noConfusion h
        | ok headers =>
            simp only [hh] at h
            cases hbd : resolveBody opts vars req.body with
            | error e =>
                simp only [hbd] at h
                exact Except.noConfusion h
            | ok body =>
                simp only [hbd] at h
                rw [her] at h
                simp only [resolveExpected] at h
                cases hex : resolveExpectedWith opts
                    (mergeVars vars (toVariableMap er.localVariables.fileVariables)) er with
                | error e =>
                    simp only [hex] at h
                    exact Except.noConfusion h
                | ok er' =>
                    simp only [hex] at h
                    injection h with h
                    subst h
                    exact ⟨er', rfl, rfl⟩
  · intro opts s₁ s₂ i req us₁ us₂ u₁ u₂ hf h₁ h₂ hr₁ hr₂ hu₁ hu₂
    obtain ⟨-, hget₁⟩ := hsource opts s₁ us₁ hr₁
    obtain ⟨-, hget₂⟩ := hsource opts s₂ us₂ hr₂
    obtain ⟨v₁, hv₁, -, hq₁⟩ := hget₁ i req h₁
    obtain ⟨v₂, hv₂, -, hq₂⟩ := hget₂ i req h₂
    rw [hu₁] at hv₁
    rw [hu₂] at hv₂
    injection hv₁ with hv₁
    injection hv₂ with hv₂
    subst hv₁
    subst hv₂
    rw [hf] at hq₁
    rw [hq₁] at hq₂
    injection hq₂

/-! ## Claim C5: strategy selection (corrected)

The claim's json condition says a body qualifies when it "is already
object-shaped or parses as JSON".  The code additionally requires a string
body, after trimming, to be brace- or bracket-delimited before it even
attempts to parse it: the string body "42" parses as JSON, so the claim
selects "json", but the selector returns "exact". -/

/-- C5 counterexample: with the expected body "42" (no content types, no
wildcard), the claim's stated priority picks "json" (the body parses as
JSON) while the selector picks "exact". -/
theorem C5_selection_counterexample :
    select (some exp42) actual200 = "exact" ∧
    claimJsonCond exp42 actual200 = true ∧
    claimPartialCond exp42 actual200 = false :=
  ⟨rfl, rfl, rfl⟩

/-- The selector's json-like body test agrees with the amended condition:
brace- or bracket-delimited after trimming, and parsing succeeds. -/
theorem isJsonLikeBody_eq_amended (b : JVal) :
    isJsonLikeBody b = amendedJsonBodyCond b := by
  cases b with
  | jstr s =>
      simp only [isJsonLikeBody, amendedJsonBodyCond]
      cases ht : trimL s.data with
      | nil => simp
      | cons c cs =>
          simp only [List.isEmpty_cons, if_false, Bool.false_eq_true]
          cases hsh : ((c :: cs).head? = some '{' && (c :: cs).getLast? = some '}')
              || ((c :: cs).head? = some '[' && (c :: cs).getLast? = some ']') with
          | true => simp [hsh]
          | false => simp [hsh]
  | jnull => rfl
  | jundef => rfl
  | jbool b => rfl
  | jnum n => rfl
  | jarr xs => rfl
  | jobj fs => rfl

/-- C5 (amended): strategy selection follows the priority json, then
partial, then exact, where the json condition is: either side's
content-type contains application/json or +json, or either body is
object-shaped, or is a string that after trimming is brace- or
bracket-delimited and parses as JSON; and the partial condition is: either
side's content-type contains text/html, or the expected body is a string
containing a `*`. -/
theorem C5_strategy_selection_amended (er : ExpectedResponse) (actual : ExecutedHttpResponse) :
    select (some er) actual =
      (if amendedJsonCond er actual then "json"
       else if claimPartialCond er actual then "partial"
       else "exact") := by
  simp only [select, amendedJsonCond, claimPartialCond, isJsonLikeBody_eq_amended]

/-- C2 witness: in the three-request shadow source, the second request's
block override resolves its url to /2 while the others resolve to /1 from
the file scope. -/
theorem C2_scope_layering_witness :
    resolveSource {} shadowSource = .ok shadowResolvedUnits ∧
    shadowSource.ast.requests.get? 1 = some shadowReq2 ∧
    ∃ u, shadowResolvedUnits.get? 1 = some u ∧ u.requestIndex = 1 ∧
      resolveRequest {} shadowReq2
        (mergeVars (toVariableMap (fileVarsOf shadowSource))
          (toVariableMap shadowReq2.blockVariables.fileVariables)) = .ok u.request :=
  ⟨rfl, rfl, (C2_scope_layering.2.1 {} shadowSource shadowResolvedUnits rfl).2 1 shadowReq2 rfl⟩

/-! ## Claim C8: key-order independence of the canonical serialization

The plan: `jequiv` (key-permutation equivalence with recursively equivalent
values) together with duplicate-free keys (`jwf`) forces the key-sorted
serializations to coincide.  The sorted field lists of the two objects are
aligned via the permutation produced by the field matching, the uniqueness
of sorted arrangements under distinct keys, and the stability of
`insertionSort` under pointwise key-equal lists. -/

/-- Characters with equal code points are equal. -/
theorem charEq_of_toNat_eq {a b : Char} (h : a.toNat = b.toNat) : a = b :=
  Char.ext (UInt32.ext h)

/-- The code-point comparison of character lists is total. -/
theorem lexLe_total : ∀ as bs : List Char, lexLe as bs = true ∨ lexLe bs as = true := by
  intro as
  induction as with
  | nil => intro bs; left; rfl
  | cons a as ih =>
      intro bs
      cases bs with
      | nil => right; rfl
      | cons b bs =>
          by_cases hab : a = b
          · subst hab
            simp only [lexLe, if_pos rfl]
            exact ih bs
          · have hn : a.toNat ≠ b.toNat := fun hc => hab (charEq_of_toNat_eq hc)
            simp only [lexLe, if_neg hab, if_neg (Ne.symm hab)]
            rcases Nat.lt_or_ge a.toNat b.toNat with hlt | hge
            · left; simpa using hlt
            · right
              simp only [decide_eq_true_eq]
              omega

/-- The code-point comparison of character lists is transitive. -/
theorem lexLe_trans : ∀ as bs cs : List Char,
    lexLe as bs = true → lexLe bs cs = true → lexLe as cs = true := by
  intro as
  induction as with
  | nil => intro bs cs _ _; rfl
  | cons a as ih =>
      intro bs cs h1 h2
      cases bs with
      | nil => simp [lexLe] at h1
      | cons b bs =>
          cases cs with
          | nil => simp [lexLe] at h2
          | cons c cs =>
              by_cases hab : a = b <;> by_cases hbc : b = c
              · subst hab; subst hbc
                simp only [lexLe, if_pos rfl] at h1 h2 ⊢
                exact ih bs cs h1 h2
              · subst hab
                simp only [lexLe, if_pos rfl] at h1
                simp only [lexLe, if_neg hbc] at h2 ⊢
                exact h2
              · subst hbc
                simp only [lexLe, if_neg hab] at h1 ⊢
                exact h1
              · simp only [lexLe, if_neg hab] at h1
                simp only [lexLe, if_neg hbc] at h2
                simp only [decide_eq_true_eq] at h1 h2
                by_cases hac : a = c
                · subst hac
                  omega
                · simp only [lexLe, if_neg hac, decide_eq_true_eq]
                  omega

/-- The code-point comparison of character lists is antisymmetric. -/
theorem lexLe_antisymm : ∀ as bs : List Char,
    lexLe as bs = true → lexLe bs as = true → as = bs := by
  intro as
  induction as with
  | nil =>
      intro bs _ h2
      cases bs with
      | nil => rfl
      | cons b bs => simp [lexLe] at h2
  | cons a as ih =>
      intro bs h1 h2
      cases bs with
      | nil => simp [lexLe] at h1
      | cons b bs =>
          by_cases hab : a = b
          · subst hab
            simp only [lexLe, if_pos rfl] at h1 h2
            rw [ih bs h1 h2]
          · simp only [lexLe, if_neg hab, if_neg (Ne.symm hab), decide_eq_true_eq] at h1 h2
            omega

/-- Strings with equal character data are equal. -/
theorem strEq_of_dataEq {s t : String} (h : s.data = t.data) : s = t := by
  cases s
  cases t
  exact congrArg String.mk h

instance : IsTotal (String × JVal) keyLe :=
  ⟨fun p q => lexLe_total p.1.data q.1.data⟩

instance : IsTrans (String × JVal) keyLe :=
  ⟨fun p q r h1 h2 => lexLe_trans p.1.data q.1.data r.1.data h1 h2⟩

instance : IsAntisymm (String × JVal) fieldLt :=
  ⟨fun p q h1 h2 =>
    absurd (strEq_of_dataEq (lexLe_antisymm p.1.data q.1.data h1.1 h2.1)) h1.2⟩

/-- A keyLe-sorted list with duplicate-free keys is strictly sorted. -/
theorem sorted_fieldLt_of_sorted_keyLe {l : List (String × JVal)}
    (hs : List.Sorted keyLe l) (hn : NodupKeys l) : List.Sorted fieldLt l := by
  have hne : List.Pairwise (fun p q : String × JVal => p.1 ≠ q.1) l := by
    unfold NodupKeys at hn
    exact (List.pairwise_map.mp hn)
  exact hs.and hne

/-- Two permuted field lists with duplicate-free keys have the same
insertion sort. -/
theorem insertionSort_eq_of_perm {A B : List (String × JVal)}
    (hp : A.Perm B) (hn : NodupKeys A) :
    List.insertionSort keyLe A = List.insertionSort keyLe B := by
  have hnB : NodupKeys B := (hn.perm (hp.map Prod.fst))
  have hpAB : (List.insertionSort keyLe A).Perm (List.insertionSort keyLe B) :=
    ((List.perm_insertionSort keyLe A).trans hp).trans (List.perm_insertionSort keyLe B).symm
  have hsA : List.Sorted fieldLt (List.insertionSort keyLe A) :=
    sorted_fieldLt_of_sorted_keyLe (List.sorted_insertionSort keyLe A)
      (hn.perm ((List.perm_insertionSort keyLe A).map Prod.fst).symm)
  have hsB : List.Sorted fieldLt (List.insertionSort keyLe B) :=
    sorted_fieldLt_of_sorted_keyLe (List.sorted_insertionSort keyLe B)
      (hnB.perm ((List.perm_insertionSort keyLe B).map Prod.fst).symm)
  exact List.eq_of_perm_of_sorted hpAB hsA hsB

/-- Ordered insertion is stable across pointwise key-equal lists. -/
theorem orderedInsert_forall₂ (a b : String × JVal) (hab : RJE a b) :
    ∀ {l₁ l₂ : List (String × JVal)}, List.Forall₂ RJE l₁ l₂ →
      List.Forall₂ RJE (List.orderedInsert keyLe a l₁) (List.orderedInsert keyLe b l₂) := by
  intro l₁ l₂ h
  induction h with
  | nil => exact List.Forall₂.cons hab List.Forall₂.nil
  | @cons x y l₁' l₂' hxy htail ih =>
      simp only [List.orderedInsert]
      have hks : keyLe a x ↔ keyLe b y := by
        unfold keyLe
        rw [hab.1, hxy.1]
      by_cases hk : keyLe a x
      · rw [if_pos hk, if_pos (hks.mp hk)]
        exact .cons hab (.cons hxy htail)
      · rw [if_neg hk, if_neg (fun hc => hk (hks.mpr hc))]
        exact .cons hxy ih

/-- Insertion sort is stable across pointwise key-equal lists. -/
theorem insertionSort_forall₂ :
    ∀ {l₁ l₂ : List (String × JVal)}, List.Forall₂ RJE l₁ l₂ →
      List.Forall₂ RJE (List.insertionSort keyLe l₁) (List.insertionSort keyLe l₂) := by
  intro l₁ l₂ h
  induction h with
  | nil => exact .nil
  | @cons x y l₁' l₂' hxy htail ih =>
      simp only [List.insertionSort]
      exact orderedInsert_forall₂ x y hxy ih

/-- Extracting a key permutes the extracted pair to the front. -/
theorem extractKey_perm (k : String) :
    ∀ (B : List (String × JVal)) (v : JVal) (B' : List (String × JVal)),
      extractKey k B = some (v, B') → B.Perm ((k, v) :: B') := by
  intro B
  induction B with
  | nil => intro v B' h; simp [extractKey] at h
  | cons kv rest ih =>
      obtain ⟨k', v'⟩ := kv
      intro v B' h
      simp only [extractKey] at h
      by_cases hk : k' = k
      · rw [if_pos hk] at h
        injection h with h
        injection h with hv hB
        subst hk hv hB
        exact List.Perm.refl _
      · rw [if_neg hk] at h
        cases hres : extractKey k rest with
        | none => rw [hres] at h; simp at h
        | some p =>
            obtain ⟨w, l⟩ := p
            rw [hres] at h
            simp only [Option.map_some'] at h
            injection h with h
            injection h with hv hB
            subst hv hB
            exact ((ih w l hres).cons (k', v')).trans (List.Perm.swap (k, w) (k', v') l)

/-- Equivalence forces null to match null. -/
theorem jequiv_null_inv : ∀ (f : Nat) (b : JVal), jequiv f .jnull b = true → b = .jnull := by
  intro f b h
  cases f with
  | zero => simp [jequiv] at h
  | succ f => cases b <;> first | rfl | simp [jequiv] at h

/-- Equivalence forces undefined to match undefined. -/
theorem jequiv_undef_inv : ∀ (f : Nat) (b : JVal), jequiv f .jundef b = true → b = .jundef := by
  intro f b h
  cases f with
  | zero => simp [jequiv] at h
  | succ f => cases b <;> first | rfl | simp [jequiv] at h

/-- Equivalence forces booleans to match exactly. -/
theorem jequiv_bool_inv : ∀ (f : Nat) (x : Bool) (b : JVal),
    jequiv f (.jbool x) b = true → b = .jbool x := by
  intro f x b h
  cases f with
  | zero => simp [jequiv] at h
  | succ f =>
      cases b <;> simp [jequiv] at h
      rw [h]

/-- Equivalence forces numbers to match exactly. -/
theorem jequiv_num_inv : ∀ (f : Nat) (x : Int) (b : JVal),
    jequiv f (.jnum x) b = true → b = .jnum x := by
  intro f x b h
  cases f with
  | zero => simp [jequiv] at h
  | succ f =>
      cases b <;> simp [jequiv] at h
      rw [h]

/-- Equivalence forces strings to match exactly. -/
theorem jequiv_str_inv : ∀ (f : Nat) (x : String) (b : JVal),
    jequiv f (.jstr x) b = true → b = .jstr x := by
  intro f x b h
  cases f with
  | zero => simp [jequiv] at h
  | succ f =>
      cases b <;> simp [jequiv] at h
      rw [h]

/-- Equivalence of arrays is elementwise. -/
theorem jequiv_arr_inv : ∀ (xs : List JVal) (f : Nat) (b : JVal),
    jequiv f (.jarr xs) b = true →
    ∃ ys, b = .jarr ys ∧ List.Forall₂ EqE xs ys := by
  intro xs
  induction xs with
  | nil =>
      intro f b h
      cases f with
      | zero => simp [jequiv] at h
      | succ f =>
          cases b with
          | jarr ys =>
              cases ys with
              | nil => exact ⟨[], rfl, .nil⟩
              | cons y ys => simp [jequiv] at h
          | jnull => simp [jequiv] at h
          | jundef => simp [jequiv] at h
          | jbool b => simp [jequiv] at h
          | jnum n => simp [jequiv] at h
          | jstr s => simp [jequiv] at h
          | jobj fs => simp [jequiv] at h
  | cons x xs ih =>
      intro f b h
      cases f with
      | zero => simp [jequiv] at h
      | succ f =>
          cases b with
          | jarr ys =>
              cases ys with
              | nil => simp [jequiv] at h
              | cons y ys =>
                  simp only [jequiv, Bool.and_eq_true] at h
                  obtain ⟨h1, h2⟩ := h
                  obtain ⟨ys', heq, hF⟩ := ih f (.jarr ys) h2
                  injection heq with heq
                  subst heq
                  exact ⟨y :: ys, rfl, .cons ⟨f, h1⟩ hF⟩
          | jnull => simp [jequiv] at h
          | jundef => simp [jequiv] at h
          | jbool b => simp [jequiv] at h
          | jnum n => simp [jequiv] at h
          | jstr s => simp [jequiv] at h
          | jobj fs => simp [jequiv] at h

/-- Equivalence of objects yields a permutation of the right field list
that matches the left one pointwise with equal keys and equivalent
values. -/
theorem jequiv_obj_inv : ∀ (A : List (String × JVal)) (f : Nat) (b : JVal),
    jequiv f (.jobj A) b = true →
    ∃ B, b = .jobj B ∧ ∃ B', B.Perm B' ∧ List.Forall₂ RJE A B' := by
  intro A
  induction A with
  | nil =>
      intro f b h
      cases f with
      | zero => simp [jequiv] at h
      | succ f =>
          cases b with
          | jobj B =>
              cases B with
              | nil => exact ⟨[], rfl, [], List.Perm.refl _, .nil⟩
              | cons kv B => simp [jequiv] at h
          | jnull => simp [jequiv] at h
          | jundef => simp [jequiv] at h
          | jbool b => simp [jequiv] at h
          | jnum n => simp [jequiv] at h
          | jstr s => simp [jequiv] at h
          | jarr xs => simp [jequiv] at h
  | cons kv rest ih =>
      obtain ⟨k, v⟩ := kv
      intro f b h
      cases f with
      | zero => simp [jequiv] at h
      | succ f =>
          cases b with
          | jobj B =>
              refine ⟨B, rfl, ?_⟩
              simp only [jequiv] at h
              cases hex : extractKey k B with
              | none => rw [hex] at h; simp at h
              | some p =>
                  obtain ⟨v', Bext⟩ := p
                  rw [hex] at h
                  simp only [Bool.and_eq_true] at h
                  obtain ⟨h1, h2⟩ := h
                  obtain ⟨Bx, hx, B'', hp, hF⟩ := ih f (.jobj Bext) h2
                  injection hx with hx
                  subst hx
                  refine ⟨(k, v') :: B'', ?_, .cons ⟨rfl, ⟨f, h1⟩⟩ hF⟩
                  exact (extractKey_perm k B v' Bext hex).trans (hp.cons (k, v'))
          | jnull => simp [jequiv] at h
          | jundef => simp [jequiv] at h
          | jbool b => simp [jequiv] at h
          | jnum n => simp [jequiv] at h
          | jstr s => simp [jequiv] at h
          | jarr xs => simp [jequiv] at h

/-- Array well-formedness restricts to the elements. -/
theorem jwf_arr_mem : ∀ (xs : List JVal) (f : Nat), jwf f (.jarr xs) = true →
    ∀ x ∈ xs, WfE x := by
  intro xs
  induction xs with
  | nil => intro f _ x hx; simp at hx
  | cons y ys ih =>
      intro f h x hx
      cases f with
      | zero => simp [jwf] at h
      | succ f =>
          simp only [jwf, Bool.and_eq_true] at h
          obtain ⟨h1, h2⟩ := h
          rcases List.mem_cons.mp hx with hx | hx
          · subst hx
            exact ⟨f, h1⟩
          · exact ih f h2 x hx

/-- Object well-formedness gives duplicate-free keys and well-formed
values. -/
theorem jwf_obj_spec : ∀ (A : List (String × JVal)) (f : Nat),
    jwf f (.jobj A) = true → NodupKeys A ∧ ∀ kv ∈ A, WfE kv.2 := by
  intro A
  induction A with
  | nil =>
      intro f h
      exact ⟨List.nodup_nil, by intro kv hkv; simp at hkv⟩
  | cons kv rest ih =>
      obtain ⟨k, v⟩ := kv
      intro f h
      cases f with
      | zero => simp [jwf] at h
      | succ f =>
          simp only [jwf, Bool.and_eq_true] at h
          obtain ⟨⟨hc, hv⟩, hrest⟩ := h
          obtain ⟨hnodup, hvals⟩ := ih f hrest
          constructor
          · unfold NodupKeys
            simp only [List.map_cons]
            refine List.Nodup.cons ?_ hnodup
            intro hmem
            have htrue : (List.map Prod.fst rest).contains k = true :=
              List.elem_eq_true_of_mem hmem
            rw [htrue] at hc
            simp at hc
          · intro p hp
            rcases List.mem_cons.mp hp with hp | hp
            · subst hp
              exact ⟨f, hv⟩
            · exact hvals p hp

/-- Every value has positive size. -/
theorem jsize_pos : ∀ v : JVal, 1 ≤ jsize v := by
  intro v
  cases v <;> simp only [jsize] <;> omega

/-- An array element's size is bounded by the element-list size. -/
theorem jsize_mem_arr : ∀ (xs : List JVal) (x : JVal), x ∈ xs → jsize x ≤ jsizeList xs := by
  intro xs
  induction xs with
  | nil => intro x hx; simp at hx
  | cons y ys ih =>
      intro x hx
      rcases List.mem_cons.mp hx with hx | hx
      · subst hx
        simp only [jsizeList]
        omega
      · have := ih x hx
        simp only [jsizeList]
        omega

/-- A field value's size is bounded by the field-list size. -/
theorem jsize_mem_fields : ∀ (A : List (String × JVal)) (kv : String × JVal),
    kv ∈ A → jsize kv.2 ≤ jsizeFields A := by
  intro A
  induction A with
  | nil => intro kv hkv; simp at hkv
  | cons p rest ih =>
      obtain ⟨k, v⟩ := p
      intro kv hkv
      rcases List.mem_cons.mp hkv with hkv | hkv
      · subst hkv
        simp only [jsizeFields]
        omega
      · have := ih kv hkv
        simp only [jsizeFields]
        omega

/-- Pointwise serialization equality over related array elements lifts to
the mapped lists. -/
theorem map_ssGo_eq (s : Nat)
    (ihs : ∀ a b : JVal, jsize a ≤ s → WfE a → WfE b → EqE a b →
           ∀ n m : Nat, jsize a ≤ n → jsize b ≤ m → ssGo n a = ssGo m b)
    (n m : Nat) :
    ∀ (xs ys : List JVal), List.Forall₂ EqE xs ys →
      (∀ x ∈ xs, WfE x) → (∀ y ∈ ys, WfE y) →
      (∀ x ∈ xs, jsize x ≤ s) → (∀ x ∈ xs, jsize x ≤ n) → (∀ y ∈ ys, jsize y ≤ m) →
      xs.map (ssGo n) = ys.map (ssGo m) := by
  intro xs ys h
  induction h with
  | nil => intro _ _ _ _ _; rfl
  | @cons x y xs' ys' hxy htail ih =>
      intro hwx hwy hsx hnx hmy
      simp only [List.map_cons]
      rw [ihs x y (hsx x (List.mem_cons_self x xs')) (hwx x (List.mem_cons_self x xs'))
            (hwy y (List.mem_cons_self y ys')) hxy n m
            (hnx x (List.mem_cons_self x xs')) (hmy y (List.mem_cons_self y ys')),
          ih (fun z hz => hwx z (List.mem_cons_of_mem x hz))
            (fun z hz => hwy z (List.mem_cons_of_mem y hz))
            (fun z hz => hsx z (List.mem_cons_of_mem x hz))
            (fun z hz => hnx z (List.mem_cons_of_mem x hz))
            (fun z hz => hmy z (List.mem_cons_of_mem y hz))]

/-- Pointwise serialization equality over related fields lifts to the
rendered property lists. -/
theorem map_field_ssGo_eq (s : Nat)
    (ihs : ∀ a b : JVal, jsize a ≤ s → WfE a → WfE b → EqE a b →
           ∀ n m : Nat, jsize a ≤ n → jsize b ≤ m → ssGo n a = ssGo m b)
    (n m : Nat) :
    ∀ (A B : List (String × JVal)), List.Forall₂ RJE A B →
      (∀ p ∈ A, WfE p.2) → (∀ q ∈ B, WfE q.2) →
      (∀ p ∈ A, jsize p.2 ≤ s) → (∀ p ∈ A, jsize p.2 ≤ n) → (∀ q ∈ B, jsize q.2 ≤ m) →
      A.map (fun kv => renderJsonString kv.1 ++ ":" ++ ssGo n kv.2)
        = B.map (fun kv => renderJsonString kv.1 ++ ":" ++ ssGo m kv.2) := by
  intro A B h
  induction h with
  | nil => intro _ _ _ _ _; rfl
  | @cons p q A' B' hpq htail ih =>
      intro hwp hwq hsp hnp hmq
      simp only [List.map_cons]
      have hval : ssGo n p.2 = ssGo m q.2 :=
        ihs p.2 q.2 (hsp p (List.mem_cons_self p A')) (hwp p (List.mem_cons_self p A'))
          (hwq q (List.mem_cons_self q B')) hpq.2 n m
          (hnp p (List.mem_cons_self p A')) (hmq q (List.mem_cons_self q B'))
      rw [hpq.1, hval,
          ih (fun z hz => hwp z (List.mem_cons_of_mem p hz))
            (fun z hz => hwq z (List.mem_cons_of_mem q hz))
            (fun z hz => hsp z (List.mem_cons_of_mem p hz))
            (fun z hz => hnp z (List.mem_cons_of_mem p hz))
            (fun z hz => hmq z (List.mem_cons_of_mem q hz))]

/-- Key-permutation-equivalent, well-formed values have the same fueled
canonical serialization, for any sufficient fuels. -/
theorem ssGo_congr : ∀ (s : Nat) (a b : JVal),
    jsize a ≤ s → WfE a → WfE b → EqE a b →
    ∀ (n m : Nat), jsize a ≤ n → jsize b ≤ m → ssGo n a = ssGo m b := by
  intro s
  induction s with
  | zero =>
      intro a b hs _ _ _ n m _ _
      have := jsize_pos a
      omega
  | succ s ihs =>
      intro a b hs hwa hwb heq n m hn hm
      obtain ⟨f, hf⟩ := heq
      cases a with
      | jnull =>
          have hb := jequiv_null_inv f b hf
          subst hb
          simp [ssGo]
      | jundef =>
          have hb := jequiv_undef_inv f b hf
          subst hb
          simp [ssGo]
      | jbool x =>
          have hb := jequiv_bool_inv f x b hf
          subst hb
          simp [ssGo]
      | jnum x =>
          have hb := jequiv_num_inv f x b hf
          subst hb
          simp [ssGo]
      | jstr x =>
          have hb := jequiv_str_inv f x b hf
          subst hb
          simp [ssGo]
      | jarr xs =>
          obtain ⟨ys, rfl, hF⟩ := jequiv_arr_inv xs f b hf
          cases n with
          | zero =>
              have := jsize_pos (.jarr xs)
              omega
          | succ n' =>
              cases m with
              | zero =>
                  have := jsize_pos (.jarr ys)
                  omega
              | succ m' =>
                  simp only [ssGo]
                  suffices hmap : xs.map (ssGo n') = ys.map (ssGo m') by rw [hmap]
                  simp only [jsize] at hs hn
                  simp only [jsize] at hm
                  obtain ⟨ga, hga⟩ := hwa
                  obtain ⟨gb, hgb⟩ := hwb
                  exact map_ssGo_eq s ihs n' m' xs ys hF
                    (jwf_arr_mem xs ga hga) (jwf_arr_mem ys gb hgb)
                    (fun x hx => by have := jsize_mem_arr xs x hx; omega)
                    (fun x hx => by have := jsize_mem_arr xs x hx; omega)
                    (fun y hy => by have := jsize_mem_arr ys y hy; omega)
      | jobj A =>
          obtain ⟨B, rfl, B', hperm, hF⟩ := jequiv_obj_inv A f b hf
          obtain ⟨ga, hga⟩ := hwa
          obtain ⟨gb, hgb⟩ := hwb
          obtain ⟨hNA, hWA⟩ := jwf_obj_spec A ga hga
          obtain ⟨hNB, hWB⟩ := jwf_obj_spec B gb hgb
          cases n with
          | zero =>
              have := jsize_pos (.jobj A)
              omega
          | succ n' =>
              cases m with
              | zero =>
                  have := jsize_pos (.jobj B)
                  omega
              | succ m' =>
                  simp only [ssGo]
                  rw [insertionSort_eq_of_perm hperm hNB]
                  suffices hmap :
                      (List.insertionSort keyLe A).map
                          (fun kv => renderJsonString kv.1 ++ ":" ++ ssGo n' kv.2)
                        = (List.insertionSort keyLe B').map
                          (fun kv => renderJsonString kv.1 ++ ":" ++ ssGo m' kv.2) by
                    rw [hmap]
                  simp only [jsize] at hs hn hm
                  have hmemA : ∀ p ∈ List.insertionSort keyLe A, p ∈ A :=
                    fun p hp => (List.perm_insertionSort keyLe A).mem_iff.mp hp
                  have hmemB : ∀ q ∈ List.insertionSort keyLe B', q ∈ B :=
                    fun q hq => hperm.symm.mem_iff.mp
                      ((List.perm_insertionSort keyLe B').mem_iff.mp hq)
                  exact map_field_ssGo_eq s ihs n' m' _ _ (insertionSort_forall₂ hF)
                    (fun p hp => hWA p (hmemA p hp))
                    (fun q hq => hWB q (hmemB q hq))
                    (fun p hp => by have := jsize_mem_fields A p (hmemA p hp); omega)
                    (fun p hp => by have := jsize_mem_fields A p (hmemA p hp); omega)
                    (fun q hq => by have := jsize_mem_fields B q (hmemB q hq); omega)

/-- Key-permutation-equivalent, well-formed values have the same canonical
serialization. -/
theorem stableStringify_congr (a b : JVal) (hwa : WfE a) (hwb : WfE b) (heq : EqE a b) :
    stableStringify a = stableStringify b :=
  ssGo_congr (jsize a) a b le_rfl hwa hwb heq (jsize a) (jsize b) le_rfl le_rfl

/-- C8: for two well-formed JSON object bodies whose keys are permutations
of each other with recursively equivalent values (at any nesting depth),
the canonical key-sorted serializations coincide, deepEqual accepts, and
the json body comparison produces no mismatch. -/
theorem C8_json_key_order_independence (A B : List (String × JVal)) (f g h : Nat)
    (hwa : jwf g (.jobj A) = true) (hwb : jwf h (.jobj B) = true)
    (heq : jequiv f (.jobj A) (.jobj B) = true) :
    stableStringify (.jobj A) = stableStringify (.jobj B) ∧
    deepEqual (.jobj A) (.jobj B) = true ∧
    compareJsonBody (.jobj A) (.jobj B) [] = [] ∧
    compareBody "json" (.jobj A) (.jobj B) [] = [] := by
  have hss : stableStringify (.jobj A) = stableStringify (.jobj B) :=
    stableStringify_congr _ _ ⟨g, hwa⟩ ⟨h, hwb⟩ ⟨f, heq⟩
  have hde : deepEqual (.jobj A) (.jobj B) = true := by
    unfold deepEqual
    rw [hss]
    simp
  have hcjb : compareJsonBody (.jobj A) (.jobj B) [] = [] := by
    simp [compareJsonBody, toJsonComparable, hde]
  refine ⟨hss, hde, hcjb, ?_⟩
  unfold compareBody
  simpa using hcjb

/-- C8 witness: `{"id":1,"name":"A"}` against `{"name":"A","id":1}`. -/
theorem C8_json_key_order_independence_witness :
    jwf 3 (.jobj objIdName) = true ∧
    jwf 3 (.jobj objNameId) = true ∧
    jequiv 5 (.jobj objIdName) (.jobj objNameId) = true ∧
    compareJsonBody (.jobj objIdName) (.jobj objNameId) [] = [] :=
  ⟨rfl, rfl, rfl,
   (C8_json_key_order_independence objIdName objNameId 5 3 3 rfl rfl rfl).2.2.1⟩

end LazyReq
